import Mathlib

/-!
# kancli: the board state machine and its persistence round trip

A shallow embedding of `main.go` (the Kanban board, the task form and the
JSON persistence of the board) together with theorems about it.

Conventions of the embedding.

* Go `int` is the subtype `GoInt` of `Int` holding the 64-bit range; `++` and
  `--` wrap.
* A Go slice is a `List`; an index expression `xs[i]` that would panic with
  "index out of range" is `none` (`sliceGet`, `sliceSet`), and every
  operation that can panic returns an `Option`.
* A `Task` string is a `String`, a sequence of Unicode scalar values.  The
  strings the program puts into a `Task` are `Value()` of the form inputs
  (a conversion of a rune buffer) and the strings `json.Unmarshal` returns;
  both are well formed UTF-8, so nothing the board can hold is left out.
  JSON text is accordingly a sequence of characters.
* bubbles `list.Model` is reduced to what the board uses: the item sequence
  and the cursor `Index()`.  `insertItemIntoSlice` and `removeItemFromSlice`
  follow the list library: an index at or past the length appends, a
  negative index is clamped to 0, removal out of bounds does nothing.
  No filter is active, so the visible items are the items.  The library
  operations on the items leave the cursor where it was.
* The key-value store is reduced to the bytes under the key `lists`.
* `encoding/json` is modelled on the one type it is used with, `[][]Task`:
  `jsonMarshal` writes what `json.Marshal` writes (field tags, decimal
  integers, string escapes with HTML escaping), `jsonUnmarshal` scans and
  parses any JSON text and decodes it the way `json.Unmarshal` decodes into a
  `[][]Task` (`null`, unknown keys, repeated keys, case folding of keys,
  integer range, surrogate escapes); any error is `none`.
-/

namespace Kancli

/-! ## Go integers and slices -/

/-- Go `int` on a 64-bit platform. -/
abbrev GoInt : Type :=
  { n : Int // -9223372036854775808 ≤ n ∧ n ≤ 9223372036854775807 }

/-- Two's complement wrap-around of an integer result into `GoInt`. -/
def GoInt.wrap (n : Int) : GoInt :=
  ⟨(n + 9223372036854775808) % 18446744073709551616 - 9223372036854775808, by omega⟩

/-- Go `xs[i]` read; `none` is the index-out-of-range panic. -/
def sliceGet {α : Type} (xs : List α) (i : Int) : Option α :=
  if 0 ≤ i then xs[i.toNat]? else none

/-- Go `xs[i] = a` write; `none` is the index-out-of-range panic. -/
def sliceSet {α : Type} (xs : List α) (i : Int) (a : α) : Option (List α) :=
  if 0 ≤ i ∧ i.toNat < xs.length then some (xs.set i.toNat a) else none

/-! ## Status and Task -/

/-- Go `type status int`. -/
abbrev status : Type := GoInt

/-- Go `todo status = iota`. -/
def todo : status := ⟨0, by decide⟩

/-- Second constant of the `iota` block. -/
def inProgress : status := ⟨1, by decide⟩

/-- Third constant of the `iota` block. -/
def done : status := ⟨2, by decide⟩

/-- Go `type Task struct`. -/
structure Task where
  Estatus : status
  Etitle : String
  Edescription : String
deriving DecidableEq, Repr

/-- Go `func NewTask(status status, title, description string) Task`. -/
def NewTask (st : status) (title description : String) : Task :=
  { Estatus := st, Etitle := title, Edescription := description }

/-- Go `func (t *Task) Next()`: the task after the call. -/
def Task.Next (t : Task) : Task :=
  if t.Estatus = done then { t with Estatus := todo }
  else { t with Estatus := GoInt.wrap (t.Estatus.val + 1) }

/-! ## The list component (bubbles `list.Model`) -/

/-- The item sequence and the cursor of one column. -/
structure ListModel where
  items : List Task
  index : Nat
deriving DecidableEq, Repr

/-- Library `insertItemIntoSlice(items, item, index)`. -/
def insertItemIntoSlice (items : List Task) (item : Task) (index : Int) : List Task :=
  if index ≥ (items.length : Int) then items ++ [item]
  else
    let i := (max 0 index).toNat
    items.take i ++ item :: items.drop i

/-- Library `removeItemFromSlice(i, index)`. -/
def removeItemFromSlice (i : List Task) (index : Nat) : List Task :=
  if index ≥ i.length then i else i.eraseIdx index

/-- Library `list.Model.Items()`. -/
def ListModel.Items (l : ListModel) : List Task := l.items

/-- Library `list.Model.Index()`. -/
def ListModel.Index (l : ListModel) : Nat := l.index

/-- Library `list.Model.SelectedItem()`; `none` is Go `nil`. -/
def ListModel.SelectedItem (l : ListModel) : Option Task :=
  if l.items.length = 0 ∨ l.items.length ≤ l.Index then none else l.items[l.Index]?

/-- Library `list.Model.SetItems(i)`. -/
def ListModel.SetItems (l : ListModel) (i : List Task) : ListModel := { l with items := i }

/-- Library `list.Model.InsertItem(index, item)`. -/
def ListModel.InsertItem (l : ListModel) (index : Int) (item : Task) : ListModel :=
  { l with items := insertItemIntoSlice l.items item index }

/-- Library `list.Model.RemoveItem(index)`. -/
def ListModel.RemoveItem (l : ListModel) (index : Nat) : ListModel :=
  { l with items := removeItemFromSlice l.items index }

/-! ## The board (`Model`) -/

/-- Go `type Model struct`; `database` is the value stored under the key
`lists` (`none` while the key is absent). -/
structure Model where
  database : Option (List Char)
  loaded : Bool
  focused : status
  lists : List ListModel
  quitting : Bool
deriving DecidableEq, Repr

/-- The three task sequences of a board, in column order. -/
def Model.columns (m : Model) : List (List Task) := m.lists.map ListModel.items

/-- Inner loop of `ConvertToTaskList`:
`taskList[status] = append(taskList[status], t.(Task))` for each item. -/
def ConvertToTaskList.inner (st : Nat) :
    List Task → List (List Task) → Option (List (List Task))
  | [], taskList => some taskList
  | t :: rest, taskList =>
    match taskList[st]? with
    | none => none
    | some cur => ConvertToTaskList.inner st rest (taskList.set st (cur ++ [t]))

/-- Outer loop of `ConvertToTaskList`: `for status, tl := range m.lists`. -/
def ConvertToTaskList.outer :
    Nat → List ListModel → List (List Task) → Option (List (List Task))
  | _, [], taskList => some taskList
  | st, tl :: rest, taskList =>
    match ConvertToTaskList.inner st tl.Items taskList with
    | none => none
    | some taskList1 => ConvertToTaskList.outer (st + 1) rest taskList1

/-- Go `func (m *Model) ConvertToTaskList() [][]Task`. -/
def Model.ConvertToTaskList (m : Model) : Option (List (List Task)) :=
  ConvertToTaskList.outer 0 m.lists [[], [], []]

/-- Inner loop of `ImportTaskList`:
`for i, task := range tl { m.lists[status].InsertItem(i, task) }`. -/
def ImportTaskList.inner : Nat → List Task → ListModel → ListModel
  | _, [], l => l
  | i, task :: rest, l => ImportTaskList.inner (i + 1) rest (l.InsertItem (i : Int) task)

/-- Outer loop of `ImportTaskList`: `for status, tl := range tasks`. -/
def ImportTaskList.outer :
    Nat → List (List Task) → List ListModel → Option (List ListModel)
  | _, [], lists => some lists
  | st, tl :: rest, lists =>
    match lists[st]? with
    | none => none
    | some l =>
      ImportTaskList.outer (st + 1) rest
        (lists.set st (ImportTaskList.inner 0 tl (l.SetItems [])))

/-- Go `func (m *Model) ImportTaskList(tasks [][]Task)`. -/
def Model.ImportTaskList (m : Model) (tasks : List (List Task)) : Option Model :=
  match ImportTaskList.outer 0 tasks m.lists with
  | none => none
  | some lists => some { m with lists := lists }

/-- Go `func (m *Model) MoveToNext() tea.Msg`: the board after the call. -/
def Model.MoveToNext (m : Model) : Option Model :=
  match sliceGet m.lists m.focused.val with
  | none => none
  | some fl =>
    match fl.SelectedItem with
    | none => some m
    | some selectedTask =>
      match sliceGet m.lists selectedTask.Estatus.val with
      | none => none
      | some src =>
        match sliceSet m.lists selectedTask.Estatus.val (src.RemoveItem fl.Index) with
        | none => none
        | some lists1 =>
          let moved := selectedTask.Next
          match sliceGet lists1 moved.Estatus.val with
          | none => none
          | some dst =>
            match sliceSet lists1 moved.Estatus.val
                (dst.InsertItem ((dst.Items.length : Int) - 1) moved) with
            | none => none
            | some lists2 => some { m with lists := lists2 }

/-- Go `func (m *Model) DeleteTask() tea.Msg`: the board after the call. -/
def Model.DeleteTask (m : Model) : Option Model :=
  match sliceGet m.lists m.focused.val with
  | none => none
  | some fl =>
    match fl.SelectedItem with
    | none => some m
    | some selectedTask =>
      match sliceGet m.lists selectedTask.Estatus.val with
      | none => none
      | some src =>
        match sliceSet m.lists selectedTask.Estatus.val (src.RemoveItem fl.Index) with
        | none => none
        | some lists1 => some { m with lists := lists1 }

/-- Go `func (m *Model) Next()`. -/
def Model.Next (m : Model) : Model :=
  if m.focused = done then { m with focused := todo }
  else { m with focused := GoInt.wrap (m.focused.val + 1) }

/-- Go `func (m *Model) Prev()`. -/
def Model.Prev (m : Model) : Model :=
  if m.focused = todo then { m with focused := done }
  else { m with focused := GoInt.wrap (m.focused.val - 1) }

/-- The `case Task` branch of `Model.Update`:
`m.lists[task.Estatus].InsertItem(len(m.lists[task.Estatus].Items()), task)`. -/
def Model.UpdateTask (m : Model) (task : Task) : Option Model :=
  match sliceGet m.lists task.Estatus.val with
  | none => none
  | some l =>
    match sliceSet m.lists task.Estatus.val
        (l.InsertItem (l.Items.length : Int) task) with
    | none => none
    | some lists1 => some { m with lists := lists1 }

/-! ## JSON persistence (`encoding/json` as used on `[][]Task`) -/

/-- Lower-case hexadecimal digit of `n < 16` (the encoder's `hex` table). -/
def hexDigit (n : Nat) : Char :=
  if n < 10 then Char.ofNat (48 + n) else Char.ofNat (87 + n)

/-- Escaping of one character inside a JSON string by `json.Marshal`
(HTML escaping on, as `Marshal` has it). -/
def escapeChar (c : Char) : List Char :=
  if c = '"' ∨ c = '\\' then ['\\', c]
  else if c = '\x08' then ['\\', 'b']
  else if c = '\x0c' then ['\\', 'f']
  else if c = '\n' then ['\\', 'n']
  else if c = '\r' then ['\\', 'r']
  else if c = '\t' then ['\\', 't']
  else if c.toNat < 32 ∨ c = '<' ∨ c = '>' ∨ c = '&' then
    ['\\', 'u', '0', '0', hexDigit (c.toNat / 16), hexDigit (c.toNat % 16)]
  else if c = '\u2028' ∨ c = '\u2029' then
    ['\\', 'u', '2', '0', '2', hexDigit (c.toNat % 16)]
  else [c]

/-- A Go string as a quoted JSON string. -/
def encodeString (s : String) : List Char :=
  '"' :: (s.data.flatMap escapeChar ++ ['"'])

/-- Decimal digits of a natural number, most significant first. -/
def encodeNatAux : Nat → Nat → List Char → List Char
  | 0, _, acc => acc
  | fuel + 1, n, acc =>
    if n < 10 then Char.ofNat (48 + n) :: acc
    else encodeNatAux fuel (n / 10) (Char.ofNat (48 + n % 10) :: acc)

/-- Decimal form of a natural number. -/
def encodeNat (n : Nat) : List Char := encodeNatAux (n + 1) n []

/-- Decimal form of an integer (`strconv.AppendInt(_, v, 10)`). -/
def encodeInt (z : Int) : List Char :=
  if z < 0 then '-' :: encodeNat z.natAbs else encodeNat z.natAbs

/-- A `Task` as a JSON object, fields in declaration order under their tags. -/
def encodeTask (t : Task) : List Char :=
  ['\x7b', '"', 's', 't', 'a', 't', 'u', 's', '"', ':'] ++ encodeInt t.Estatus.val ++
  [',', '"', 't', 'i', 't', 'l', 'e', '"', ':'] ++ encodeString t.Etitle ++
  [',', '"', 'd', 'e', 's', 'c', 'r', 'i', 'p', 't', 'i', 'o', 'n', '"', ':'] ++
    encodeString t.Edescription ++ ['\x7d']

/-- Elements of a non-nil slice separated by commas. -/
def encodeElems {α : Type} (enc : α → List Char) : List α → List Char
  | [] => []
  | [a] => enc a
  | a :: b :: rest => enc a ++ ',' :: encodeElems enc (b :: rest)

/-- A non-nil slice as a JSON array. -/
def encodeSlice {α : Type} (enc : α → List Char) (xs : List α) : List Char :=
  '[' :: (encodeElems enc xs ++ [']'])

/-- Library `json.Marshal` on a `[][]Task` all of whose slices are non-nil. -/
def jsonMarshal (taskList : List (List Task)) : List Char :=
  encodeSlice (encodeSlice encodeTask) taskList

/-- Tokens of a JSON text. -/
inductive Token where
  | lbracket | rbracket | lbrace | rbrace | comma | colon
  | str (s : List Char)
  | num (lit : List Char)
  | litTrue | litFalse | litNull
deriving DecidableEq, Repr

/-- Value of a hexadecimal digit. -/
def hexVal (c : Char) : Option Nat :=
  if 48 ≤ c.toNat ∧ c.toNat ≤ 57 then some (c.toNat - 48)
  else if 97 ≤ c.toNat ∧ c.toNat ≤ 102 then some (c.toNat - 87)
  else if 65 ≤ c.toNat ∧ c.toNat ≤ 70 then some (c.toNat - 55)
  else none

/-- Decoder `getu4`: the number written by four hexadecimal digits. -/
def getu4 (a b c d : Char) : Option Nat :=
  match hexVal a, hexVal b, hexVal c, hexVal d with
  | some x, some y, some z, some w => some (x * 4096 + y * 256 + z * 16 + w)
  | _, _, _, _ => none

/-- The character a one-letter escape stands for. -/
def unescape (e : Char) : Option Char :=
  if e = '"' ∨ e = '\\' ∨ e = '/' then some e
  else if e = 'b' then some '\x08'
  else if e = 'f' then some '\x0c'
  else if e = 'n' then some '\n'
  else if e = 'r' then some '\r'
  else if e = 't' then some '\t'
  else none

/-- A high surrogate escape that was not followed by a low surrogate escape
stands for the replacement character. -/
def flushPending (acc : List Char) : Option Nat → List Char
  | none => acc
  | some _ => acc ++ ['\ufffd']

/-- Scans a string literal after its opening quote: the decoded characters
and the input after the closing quote.  Control characters are rejected.
`pending` holds a high surrogate escape just read: it is joined with a low
surrogate escape that follows at once; every other surrogate escape is the
replacement character. -/
def lexString : List Char → List Char → Option Nat → Option (List Char × List Char)
  | [], _, _ => none
  | c :: rest, acc, pending =>
    if c = '"' then some (flushPending acc pending, rest)
    else if c = '\\' then
      match rest with
      | [] => none
      | e :: rest1 =>
        if e = 'u' then
          match rest1 with
          | h1 :: h2 :: h3 :: h4 :: rest2 =>
            match getu4 h1 h2 h3 h4 with
            | none => none
            | some v =>
              if 56320 ≤ v ∧ v < 57344 then
                match pending with
                | some hi =>
                  lexString rest2
                    (acc ++ [Char.ofNat ((hi - 55296) * 1024 + (v - 56320) + 65536)]) none
                | none => lexString rest2 (acc ++ ['\ufffd']) none
              else if 55296 ≤ v ∧ v < 56320 then
                lexString rest2 (flushPending acc pending) (some v)
              else lexString rest2 (flushPending acc pending ++ [Char.ofNat v]) none
          | _ => none
        else
          match unescape e with
          | none => none
          | some ch => lexString rest1 (flushPending acc pending ++ [ch]) none
    else if c.toNat < 32 then none
    else lexString rest (flushPending acc pending ++ [c]) none

/-- Decimal digit test. -/
def isDigit (c : Char) : Bool := decide (48 ≤ c.toNat ∧ c.toNat ≤ 57)

/-- Characters a number literal is made of. -/
def isNumChar (c : Char) : Bool :=
  isDigit c || decide (c = '-' ∨ c = '+' ∨ c = '.' ∨ c = 'e' ∨ c = 'E')

/-- Exponent part of a number literal (possibly absent). -/
def validExp : List Char → Bool
  | [] => true
  | c :: r =>
    decide (c = 'e' ∨ c = 'E') &&
      (match r with
        | [] => false
        | s :: r2 =>
          if s = '+' ∨ s = '-' then !r2.isEmpty && r2.all isDigit
          else (s :: r2).all isDigit)

/-- Fraction part (possibly absent) followed by the exponent part. -/
def validFrac : List Char → Bool
  | [] => true
  | c :: r =>
    if c = '.' then
      match r with
      | [] => false
      | d :: r2 => isDigit d && validExp (r2.dropWhile isDigit)
    else validExp (c :: r)

/-- Integer part followed by fraction and exponent. -/
def validInt : List Char → Bool
  | [] => false
  | d :: r =>
    if d = '0' then validFrac r
    else isDigit d && validFrac (r.dropWhile isDigit)

/-- The JSON number grammar. -/
def validNumber : List Char → Bool
  | [] => false
  | c :: r => if c = '-' then validInt r else validInt (c :: r)

/-- Scans a number literal. -/
def lexNumber (cs : List Char) : Option (List Char × List Char) :=
  if validNumber (cs.takeWhile isNumChar) then
    some (cs.takeWhile isNumChar, cs.dropWhile isNumChar)
  else none

/-- JSON white space. -/
def isSpace (c : Char) : Bool := decide (c = ' ' ∨ c = '\t' ∨ c = '\r' ∨ c = '\n')

/-- The scanner: JSON text to tokens.  Every step consumes input, so fuel
above the length of the input is never used up. -/
def lex : Nat → List Char → Option (List Token)
  | 0, _ => none
  | _ + 1, [] => some []
  | n + 1, c :: rest =>
    if isSpace c then lex n rest
    else if c = '[' then (lex n rest).map (fun ts => Token.lbracket :: ts)
    else if c = ']' then (lex n rest).map (fun ts => Token.rbracket :: ts)
    else if c = '\x7b' then (lex n rest).map (fun ts => Token.lbrace :: ts)
    else if c = '\x7d' then (lex n rest).map (fun ts => Token.rbrace :: ts)
    else if c = ',' then (lex n rest).map (fun ts => Token.comma :: ts)
    else if c = ':' then (lex n rest).map (fun ts => Token.colon :: ts)
    else if c = '"' then
      match lexString rest [] none with
      | none => none
      | some (s, rest1) => (lex n rest1).map (fun ts => Token.str s :: ts)
    else if c = '-' ∨ isDigit c = true then
      match lexNumber (c :: rest) with
      | none => none
      | some (lit, rest1) => (lex n rest1).map (fun ts => Token.num lit :: ts)
    else if ['t', 'r', 'u', 'e'].isPrefixOf (c :: rest) then
      (lex n (rest.drop 3)).map (fun ts => Token.litTrue :: ts)
    else if ['f', 'a', 'l', 's', 'e'].isPrefixOf (c :: rest) then
      (lex n (rest.drop 4)).map (fun ts => Token.litFalse :: ts)
    else if ['n', 'u', 'l', 'l'].isPrefixOf (c :: rest) then
      (lex n (rest.drop 3)).map (fun ts => Token.litNull :: ts)
    else none

/-- JSON values. -/
inductive JSON where
  | null
  | bool (b : Bool)
  | num (lit : List Char)
  | str (s : List Char)
  | arr (elems : List JSON)
  | obj (members : List (List Char × JSON))

mutual
/-- Parses one JSON value from the tokens. -/
def parseValue : Nat → List Token → Option (JSON × List Token)
  | 0, _ => none
  | _ + 1, [] => none
  | n + 1, tok :: ts =>
    match tok with
    | Token.litNull => some (JSON.null, ts)
    | Token.litTrue => some (JSON.bool true, ts)
    | Token.litFalse => some (JSON.bool false, ts)
    | Token.num lit => some (JSON.num lit, ts)
    | Token.str s => some (JSON.str s, ts)
    | Token.lbracket =>
      match ts with
      | Token.rbracket :: ts1 => some (JSON.arr [], ts1)
      | _ =>
        match parseElems n ts with
        | none => none
        | some (elems, ts1) => some (JSON.arr elems, ts1)
    | Token.lbrace =>
      match ts with
      | Token.rbrace :: ts1 => some (JSON.obj [], ts1)
      | _ =>
        match parseMembers n ts with
        | none => none
        | some (members, ts1) => some (JSON.obj members, ts1)
    | _ => none
/-- Parses array elements up to and including the closing bracket. -/
def parseElems : Nat → List Token → Option (List JSON × List Token)
  | 0, _ => none
  | n + 1, ts =>
    match parseValue n ts with
    | none => none
    | some (v, ts1) =>
      match ts1 with
      | Token.rbracket :: ts2 => some ([v], ts2)
      | Token.comma :: ts2 =>
        match parseElems n ts2 with
        | none => none
        | some (vs, ts3) => some (v :: vs, ts3)
      | _ => none
/-- Parses object members up to and including the closing brace. -/
def parseMembers : Nat → List Token → Option (List (List Char × JSON) × List Token)
  | 0, _ => none
  | n + 1, ts =>
    match ts with
    | Token.str key :: Token.colon :: ts0 =>
      match parseValue n ts0 with
      | none => none
      | some (v, ts1) =>
        match ts1 with
        | Token.rbrace :: ts2 => some ([(key, v)], ts2)
        | Token.comma :: ts2 =>
          match parseMembers n ts2 with
          | none => none
          | some (ms, ts3) => some ((key, v) :: ms, ts3)
        | _ => none
    | _ => none
end

/-- Value of a digit string. -/
def digitsVal (ds : List Char) : Nat :=
  ds.foldl (fun a c => a * 10 + (c.toNat - 48)) 0

/-- Library `strconv.ParseInt(lit, 10, 64)`. -/
def parseInt (lit : List Char) : Option GoInt :=
  let neg : Bool := match lit with
    | c :: _ => decide (c = '-')
    | [] => false
  let ds : List Char := match lit with
    | c :: r => if c = '-' ∨ c = '+' then r else lit
    | [] => []
  if ds.isEmpty || !ds.all isDigit then none
  else
    let v : Int := if neg then -(digitsVal ds : Int) else (digitsVal ds : Int)
    if h : -9223372036854775808 ≤ v ∧ v ≤ 9223372036854775807 then some ⟨v, h⟩ else none

/-- Case folding of a key character when a key is matched against a field
name: ASCII letters fold to lower case, the long s to `s`, the Kelvin sign
to `k`. -/
def foldChar (c : Char) : Char :=
  if 65 ≤ c.toNat ∧ c.toNat ≤ 90 then Char.ofNat (c.toNat + 32)
  else if c = '\u017f' then 's'
  else if c = '\u212a' then 'k'
  else c

/-- Does the key of an object member select the field with this tag. -/
def keyMatches (key name : List Char) : Bool := key.map foldChar == name

/-- Decodes a JSON value into an `int` field. -/
def decodeInt (cur : GoInt) : JSON → Option GoInt
  | JSON.null => some cur
  | JSON.num lit => parseInt lit
  | _ => none

/-- Decodes a JSON value into a `string` field. -/
def decodeString (cur : String) : JSON → Option String
  | JSON.null => some cur
  | JSON.str s => some (String.mk s)
  | _ => none

/-- Decodes one object member into the `Task` under construction; a key that
selects no field is skipped. -/
def decodeField (t : Task) (member : List Char × JSON) : Option Task :=
  if keyMatches member.1 ['s', 't', 'a', 't', 'u', 's'] then
    (decodeInt t.Estatus member.2).map (fun s => { t with Estatus := s })
  else if keyMatches member.1 ['t', 'i', 't', 'l', 'e'] then
    (decodeString t.Etitle member.2).map (fun s => { t with Etitle := s })
  else if keyMatches member.1 ['d', 'e', 's', 'c', 'r', 'i', 'p', 't', 'i', 'o', 'n'] then
    (decodeString t.Edescription member.2).map (fun s => { t with Edescription := s })
  else some t

/-- Decodes a JSON value into a `Task`. -/
def decodeTask : JSON → Option Task
  | JSON.null => some ⟨⟨0, by decide⟩, "", ""⟩
  | JSON.obj members => members.foldlM decodeField ⟨⟨0, by decide⟩, "", ""⟩
  | _ => none

/-- Decodes the elements of a JSON array one by one; any failure fails the
whole. -/
def decodeAll {α : Type} (f : JSON → Option α) : List JSON → Option (List α)
  | [] => some []
  | v :: vs =>
    match f v with
    | none => none
    | some a =>
      match decodeAll f vs with
      | none => none
      | some rest => some (a :: rest)

/-- Decodes a JSON value into a `[]Task`. -/
def decodeTasks : JSON → Option (List Task)
  | JSON.null => some []
  | JSON.arr elems => decodeAll decodeTask elems
  | _ => none

/-- Decodes a JSON value into a `[][]Task`. -/
def decodeTaskLists : JSON → Option (List (List Task))
  | JSON.null => some []
  | JSON.arr elems => decodeAll decodeTasks elems
  | _ => none

/-- Library `json.Unmarshal(data, &remoteTasks)` with `remoteTasks` a nil
`[][]Task`; `none` is a non-nil error. -/
def jsonUnmarshal (data : List Char) : Option (List (List Task)) :=
  match lex (data.length + 1) data with
  | none => none
  | some toks =>
    match parseValue (2 * toks.length + 2) toks with
    | some (v, []) => decodeTaskLists v
    | _ => none

/-- Go `func (m *Model) updateDB()`. -/
def Model.updateDB (m : Model) : Option Model :=
  match m.ConvertToTaskList with
  | none => none
  | some taskList => some { m with database := some (jsonMarshal taskList) }

/-- Go `func (m *Model) getListsFromDB()`; a missing key gives no bytes. -/
def Model.getListsFromDB (m : Model) : Option Model :=
  match jsonUnmarshal (m.database.getD []) with
  | none => none
  | some remoteTasks => m.ImportTaskList remoteTasks

/-! ## Tokens and values of an encoded board (used in the round trip proof) -/

/-- The tokens of `encodeTask t`. -/
def taskTokens (t : Task) : List Token :=
  [Token.lbrace, Token.str ['s', 't', 'a', 't', 'u', 's'], Token.colon,
    Token.num (encodeInt t.Estatus.val), Token.comma,
    Token.str ['t', 'i', 't', 'l', 'e'], Token.colon, Token.str t.Etitle.data, Token.comma,
    Token.str ['d', 'e', 's', 'c', 'r', 'i', 'p', 't', 'i', 'o', 'n'], Token.colon,
    Token.str t.Edescription.data, Token.rbrace]

/-- The tokens of `encodeElems enc xs`, given the tokens of one element. -/
def elemsTokens {α : Type} (toks : α → List Token) : List α → List Token
  | [] => []
  | [a] => toks a
  | a :: b :: rest => toks a ++ Token.comma :: elemsTokens toks (b :: rest)

/-- The tokens of `encodeSlice enc xs`. -/
def sliceTokens {α : Type} (toks : α → List Token) (xs : List α) : List Token :=
  Token.lbracket :: (elemsTokens toks xs ++ [Token.rbracket])

/-- The JSON value written by `encodeTask t`. -/
def taskJSON (t : Task) : JSON :=
  JSON.obj [(['s', 't', 'a', 't', 'u', 's'], JSON.num (encodeInt t.Estatus.val)),
    (['t', 'i', 't', 'l', 'e'], JSON.str t.Etitle.data),
    (['d', 'e', 's', 'c', 'r', 'i', 'p', 't', 'i', 'o', 'n'], JSON.str t.Edescription.data)]

/-- Scanning `cs` yields the tokens `toks` and goes on with the suffix
`rest`, for every fuel above the length of `cs`. -/
def LexStep (cs rest : List Char) (toks : List Token) : Prop :=
  rest.length ≤ cs.length ∧
    ∀ n, cs.length < n → lex n cs = (lex n rest).map (fun ts => toks ++ ts)

/-! ## The task form (`Form`) -/

/-- A message of the event loop (`tea.Msg`).  A key message is identified by
`msg.String()`; `other` stands for any message that is neither a key, a
window size nor a `Task` (for instance `nil` or a cursor blink). -/
inductive Msg where
  | KeyMsg (key : String)
  | WindowSizeMsg (width height : Int)
  | TaskMsg (task : Task)
  | other (tag : Nat)
deriving DecidableEq, Repr

/-- What the form needs of `textinput.Model` and `textarea.Model`: the text
value and the focus flag. -/
structure TextField where
  value : String
  focus : Bool
deriving DecidableEq, Repr

/-- Library `textinput.New()` and `textarea.New()`: empty and not focused. -/
def TextField.New : TextField := { value := "", focus := false }

/-- Library `Focus()`. -/
def TextField.Focus (f : TextField) : TextField := { f with focus := true }

/-- Library `Blur()`. -/
def TextField.Blur (f : TextField) : TextField := { f with focus := false }

/-- Library `Focused()`. -/
def TextField.Focused (f : TextField) : Bool := f.focus

/-- Library `Value()`. -/
def TextField.Value (f : TextField) : String := f.value

/-- Library `Update(msg)` of a text field: a field without focus ignores the
message; a focused field edits its value.  The editing itself belongs to the
library and is the parameter `edit`. -/
def TextField.Update (edit : Msg → String → String) (f : TextField) (msg : Msg) : TextField :=
  if f.focus then { f with value := edit msg f.value } else f

/-- Go `type Form struct`. -/
structure Form where
  quitting : Bool
  focused : status
  title : TextField
  description : TextField
deriving DecidableEq, Repr

/-- Go `func NewForm(focused status) *Form`. -/
def NewForm (focused : status) : Form :=
  { quitting := false
    focused := focused
    title := TextField.New.Focus
    description := TextField.New }

/-- Go `func (m Form) CreateTask() tea.Msg`: the `Task` message it returns. -/
def Form.CreateTask (m : Form) : Task :=
  NewTask m.focused m.title.Value m.description.Value

/-- The command returned next to the model by `Form.Update`. -/
inductive Cmd where
  | Quit
  | Blink
  | CreateTask (task : Task)
  | field
deriving DecidableEq, Repr

/-- Which entry of the global `models` is handed back as the active model. -/
inductive Active where
  | model
  | form
deriving DecidableEq, Repr

/-- Result of `Form.Update`: the form value `m` at the return, the model that
is returned as active, and the command. -/
structure FormStep where
  form : Form
  active : Active
  cmd : Cmd
deriving DecidableEq, Repr

/-- Go `func (m Form) Update(msg tea.Msg) (tea.Model, tea.Cmd)`.  The editing
functions of the two library inputs are the parameters `editTitle` and
`editDescription`; closing the store on ctrl+c is taken to succeed. -/
def Form.Update (editTitle editDescription : Msg → String → String)
    (m : Form) (msg : Msg) : FormStep :=
  let fallthrough : FormStep :=
    if m.title.Focused then
      { form := { m with title := m.title.Update editTitle msg }
        active := Active.form, cmd := Cmd.field }
    else
      { form := { m with description := m.description.Update editDescription msg }
        active := Active.form, cmd := Cmd.field }
  match msg with
  | Msg.KeyMsg key =>
    if key = "ctrl+c" then
      { form := { m with quitting := true }, active := Active.form, cmd := Cmd.Quit }
    else if key = "enter" then
      if m.title.Focused then
        { form := { m with title := m.title.Blur, description := m.description.Focus }
          active := Active.form, cmd := Cmd.Blink }
      else
        { form := m, active := Active.model, cmd := Cmd.CreateTask m.CreateTask }
    else fallthrough
  | _ => fallthrough

/-- The form after a sequence of messages, each handled by `Form.Update`. -/
def Form.run (editTitle editDescription : Msg → String → String) : Form → List Msg → Form
  | m, [] => m
  | m, msg :: rest =>
    Form.run editTitle editDescription (m.Update editTitle editDescription msg).form rest

/-! ## Concrete inputs used by the witnesses -/

/-- A board with focus on inProgress, two tasks there (cursor on the second)
and one task in done. -/
def demoBoard : Model :=
  { database := none, loaded := true, focused := inProgress
    lists := [⟨[], 0⟩,
      ⟨[⟨inProgress, "x", "p"⟩, ⟨inProgress, "y", "q"⟩], 1⟩,
      ⟨[⟨done, "z", "r"⟩], 0⟩]
    quitting := false }

/-- A board with three empty columns and the focus on todo. -/
def emptyBoard : Model :=
  { database := none, loaded := true, focused := todo
    lists := [⟨[], 0⟩, ⟨[], 0⟩, ⟨[], 0⟩], quitting := false }

/-- The empty board after the task "Buy milk" was delivered to todo. -/
def oneTaskBoard : Model :=
  { database := none, loaded := true, focused := todo
    lists := [⟨[⟨todo, "Buy milk", "2%"⟩], 0⟩, ⟨[], 0⟩, ⟨[], 0⟩], quitting := false }

/-- A simple editing function: a key message appends its key text. -/
def demoEdit : Msg → String → String
  | Msg.KeyMsg key, v => v ++ key
  | _, v => v

/-- Forms of one lifecycle: `NewForm s`, then any messages, each handled by
`Form.Update`. -/
inductive Form.Reachable (eT eD : Msg → String → String) (s : status) : Form → Prop where
  | init : Form.Reachable eT eD s (NewForm s)
  | step (f : Form) (msg : Msg) :
      Form.Reachable eT eD s f → Form.Reachable eT eD s (f.Update eT eD msg).form

/-- Board states reachable from the board with three empty columns by the
board operations: `Next`, `Prev`, `MoveToNext`, `DeleteTask`, delivery of a
`Task` message whose status is one of the three statuses, `ImportTaskList` of
a snapshot that `ConvertToTaskList` produced on a reachable board, and cursor
movement inside the columns (done by the list component). -/
inductive Model.Reachable : Model → Prop where
  | init (db : Option (List Char)) (loaded quitting : Bool) :
      Model.Reachable
        { database := db, loaded := loaded, focused := todo
          lists := [⟨[], 0⟩, ⟨[], 0⟩, ⟨[], 0⟩], quitting := quitting }
  | next (m : Model) : Model.Reachable m → Model.Reachable m.Next
  | prev (m : Model) : Model.Reachable m → Model.Reachable m.Prev
  | moveToNext (m m1 : Model) :
      Model.Reachable m → m.MoveToNext = some m1 → Model.Reachable m1
  | deleteTask (m m1 : Model) :
      Model.Reachable m → m.DeleteTask = some m1 → Model.Reachable m1
  | task (m m1 : Model) (t : Task) :
      Model.Reachable m → (t.Estatus = todo ∨ t.Estatus = inProgress ∨ t.Estatus = done) →
      m.UpdateTask t = some m1 → Model.Reachable m1
  | importTaskList (m m0 m1 : Model) (snapshot : List (List Task)) :
      Model.Reachable m → Model.Reachable m0 →
      m0.ConvertToTaskList = some snapshot →
      m.ImportTaskList snapshot = some m1 → Model.Reachable m1
  | cursor (m : Model) (lists1 : List ListModel) :
      Model.Reachable m → lists1.map ListModel.items = m.lists.map ListModel.items →
      Model.Reachable { m with lists := lists1 }


/-! ## Helper lemmas -/

theorem slice_three {α : Type} {xs : List α} (h : xs.length = 3) :
    ∃ a b c, xs = [a, b, c] := by
  match xs, h with
  | [a, b, c], _ => exact ⟨a, b, c, rfl⟩

theorem sliceGet_three {α : Type} {a b c x : α} {s : status}
    (h : sliceGet [a, b, c] s.val = some x) :
    (s = todo ∧ x = a) ∨ (s = inProgress ∧ x = b) ∨ (s = done ∧ x = c) := by
  obtain ⟨n, hn⟩ := s
  unfold sliceGet at h
  simp only at h
  split at h
  · rename_i h0
    have h3 : n.toNat < 3 := by
      by_contra hc
      have : ([a, b, c] : List α)[n.toNat]? = none := by
        apply List.getElem?_eq_none; simp; omega
      rw [this] at h; exact absurd h (by simp)
    have : n = 0 ∨ n = 1 ∨ n = 2 := by omega
    rcases this with rfl | rfl | rfl
    · left; exact ⟨rfl, by simpa using h.symm⟩
    · right; left; exact ⟨rfl, by simpa using h.symm⟩
    · right; right; exact ⟨rfl, by simpa using h.symm⟩
  · exact absurd h (by simp)

theorem sliceGet_nonneg {α : Type} {xs : List α} {i : Int} {x : α}
    (h : sliceGet xs i = some x) : 0 ≤ i ∧ i.toNat < xs.length ∧ xs[i.toNat]? = some x := by
  unfold sliceGet at h
  split at h
  · rename_i h0
    refine ⟨h0, ?_, h⟩
    by_contra hc
    rw [List.getElem?_eq_none (by omega)] at h
    exact absurd h (by simp)
  · exact absurd h (by simp)

theorem sliceSet_of_get {α : Type} {xs : List α} {i : Int} {x : α} (a : α)
    (h : sliceGet xs i = some x) : sliceSet xs i a = some (xs.set i.toNat a) := by
  obtain ⟨h0, h1, _⟩ := sliceGet_nonneg h
  simp [sliceSet, h0, h1]

theorem sliceGet_set_same {α : Type} {xs : List α} {i : Int} {x : α} (a : α)
    (h : sliceGet xs i = some x) : sliceGet (xs.set i.toNat a) i = some a := by
  obtain ⟨h0, h1, _⟩ := sliceGet_nonneg h
  simp [sliceGet, h0, h1]

theorem sliceGet_set_ne {α : Type} {xs : List α} {i j : Int} {x : α} (a : α)
    (h : sliceGet xs i = some x) (hij : j ≠ i) :
    sliceGet (xs.set i.toNat a) j = sliceGet xs j := by
  obtain ⟨h0, _, _⟩ := sliceGet_nonneg h
  unfold sliceGet
  split
  · rename_i hj
    have : i.toNat ≠ j.toNat := by omega
    simp [List.getElem?_set_ne this]
  · rfl

theorem selectedItem_some {l : ListModel} {t : Task} (h : l.SelectedItem = some t) :
    l.index < l.items.length ∧ l.items[l.index]? = some t := by
  unfold ListModel.SelectedItem ListModel.Index at h
  split at h
  · exact absurd h (by simp)
  · rename_i hc
    exact ⟨by omega, h⟩

theorem selectedItem_nil {l : ListModel} (h : l.items = []) : l.SelectedItem = none := by
  simp [ListModel.SelectedItem, h]

theorem removeItemFromSlice_eq (xs : List Task) (i : Nat) :
    removeItemFromSlice xs i = xs.eraseIdx i := by
  unfold removeItemFromSlice
  split
  · rename_i h
    exact (List.eraseIdx_of_length_le h).symm
  · rfl

theorem insertItemIntoSlice_len (xs : List Task) (t : Task) :
    insertItemIntoSlice xs t (xs.length : Int) = xs ++ [t] := by
  simp [insertItemIntoSlice]

theorem Task.Next_todo {t : Task} (h : t.Estatus = todo) :
    t.Next = { t with Estatus := inProgress } := by
  obtain ⟨s, a, b⟩ := t
  simp only at h
  subst h
  rfl

theorem Task.Next_inProgress {t : Task} (h : t.Estatus = inProgress) :
    t.Next = { t with Estatus := done } := by
  obtain ⟨s, a, b⟩ := t
  simp only at h
  subst h
  rfl

theorem Task.Next_done {t : Task} (h : t.Estatus = done) :
    t.Next = { t with Estatus := todo } := by
  obtain ⟨s, a, b⟩ := t
  simp only at h
  subst h
  rfl

theorem status_ne :
    todo ≠ inProgress ∧ inProgress ≠ todo ∧ todo ≠ done ∧ done ≠ todo ∧
    inProgress ≠ done ∧ done ≠ inProgress := by decide

/-! ## Focus cycling -/

/-- C7: `Next` and `Prev` move the focus cyclically over the three statuses
(Next: todo, inProgress, done, todo; Prev: todo, done, inProgress, todo),
three consecutive calls of either return the focus to where it started from
each of the three statuses, and neither changes the columns. -/
theorem focus_cycling (m : Model) :
    ({ m with focused := todo }).Next.focused = inProgress ∧
    ({ m with focused := inProgress }).Next.focused = done ∧
    ({ m with focused := done }).Next.focused = todo ∧
    ({ m with focused := todo }).Prev.focused = done ∧
    ({ m with focused := done }).Prev.focused = inProgress ∧
    ({ m with focused := inProgress }).Prev.focused = todo ∧
    ({ m with focused := todo }).Next.Next.Next.focused = todo ∧
    ({ m with focused := inProgress }).Next.Next.Next.focused = inProgress ∧
    ({ m with focused := done }).Next.Next.Next.focused = done ∧
    ({ m with focused := todo }).Prev.Prev.Prev.focused = todo ∧
    ({ m with focused := inProgress }).Prev.Prev.Prev.focused = inProgress ∧
    ({ m with focused := done }).Prev.Prev.Prev.focused = done ∧
    m.Next.lists = m.lists ∧ m.Prev.lists = m.lists := by
  refine ⟨rfl, rfl, rfl, rfl, rfl, rfl, rfl, rfl, rfl, rfl, rfl, rfl, ?_, ?_⟩
  · unfold Model.Next; split <;> rfl
  · unfold Model.Prev; split <;> rfl

/-! ## No-op safety -/

/-- C6: when the focused column is empty, `MoveToNext` and `DeleteTask` both
return normally and leave the whole board as it was. -/
theorem noop_on_empty_column (m : Model) (fl : ListModel)
    (hfl : sliceGet m.lists m.focused.val = some fl) (hempty : fl.items = []) :
    m.MoveToNext = some m ∧ m.DeleteTask = some m := by
  have hsel := selectedItem_nil hempty
  constructor
  · simp [Model.MoveToNext, hfl, hsel]
  · simp [Model.DeleteTask, hfl, hsel]

/-- Witness of C6: a board with three empty columns and the focus on `done`. -/
theorem noop_on_empty_column_witness :
    (⟨none, true, done, [⟨[], 0⟩, ⟨[], 0⟩, ⟨[], 0⟩], false⟩ : Model).MoveToNext
        = some ⟨none, true, done, [⟨[], 0⟩, ⟨[], 0⟩, ⟨[], 0⟩], false⟩ ∧
    (⟨none, true, done, [⟨[], 0⟩, ⟨[], 0⟩, ⟨[], 0⟩], false⟩ : Model).DeleteTask
        = some ⟨none, true, done, [⟨[], 0⟩, ⟨[], 0⟩, ⟨[], 0⟩], false⟩ :=
  noop_on_empty_column ⟨none, true, done, [⟨[], 0⟩, ⟨[], 0⟩, ⟨[], 0⟩], false⟩ ⟨[], 0⟩
    (by decide) rfl

/-! ## Deleting the selected task -/

/-- C5: when the focused column has a selected task at cursor index `i` and
that task's status is the focused column, `DeleteTask` returns normally, the
focused column becomes its former sequence with the element at index `i`
erased, every other column is unchanged, and the focus is unchanged. -/
theorem delete_removes_selected (m : Model) (fl : ListModel) (t : Task)
    (hfl : sliceGet m.lists m.focused.val = some fl)
    (hsel : fl.SelectedItem = some t)
    (hst : t.Estatus = m.focused) :
    ∃ m1 fl1, m.DeleteTask = some m1 ∧
      fl.index < fl.items.length ∧ fl.items[fl.index]? = some t ∧
      sliceGet m1.lists m.focused.val = some fl1 ∧
      fl1.items = fl.items.eraseIdx fl.index ∧
      (∀ s : status, s ≠ m.focused → sliceGet m1.lists s.val = sliceGet m.lists s.val) ∧
      m1.lists.length = m.lists.length ∧
      m1.focused = m.focused := by
  obtain ⟨hlt, hget⟩ := selectedItem_some hsel
  refine ⟨{ m with lists := m.lists.set m.focused.val.toNat (fl.RemoveItem fl.Index) },
    fl.RemoveItem fl.Index, ?_, hlt, hget, ?_, ?_, ?_, ?_, rfl⟩
  · simp [Model.DeleteTask, hfl, hsel, hst, sliceSet_of_get _ hfl]
  · exact sliceGet_set_same _ hfl
  · simp [ListModel.RemoveItem, ListModel.Index, removeItemFromSlice_eq]
  · intro s hs
    exact sliceGet_set_ne _ hfl (fun h => hs (Subtype.ext h))
  · simp

/-- Witness of C5: deleting the middle task of a three-task `todo` column. -/
theorem delete_removes_selected_witness :
    ∃ m1 fl1,
      (⟨none, true, todo,
        [⟨[⟨todo, "a", ""⟩, ⟨todo, "b", ""⟩, ⟨todo, "c", ""⟩], 1⟩, ⟨[], 0⟩, ⟨[], 0⟩],
        false⟩ : Model).DeleteTask = some m1 ∧
      1 < 3 ∧
      ([⟨todo, "a", ""⟩, ⟨todo, "b", ""⟩, ⟨todo, "c", ""⟩] : List Task)[1]?
        = some ⟨todo, "b", ""⟩ ∧
      sliceGet m1.lists todo.val = some fl1 ∧
      fl1.items = ([⟨todo, "a", ""⟩, ⟨todo, "b", ""⟩, ⟨todo, "c", ""⟩] : List Task).eraseIdx 1 ∧
      (∀ s : status, s ≠ todo → sliceGet m1.lists s.val
        = sliceGet [⟨[⟨todo, "a", ""⟩, ⟨todo, "b", ""⟩, ⟨todo, "c", ""⟩], 1⟩,
            ⟨[], 0⟩, ⟨[], 0⟩] s.val) ∧
      m1.lists.length = 3 ∧
      m1.focused = todo :=
  delete_removes_selected
    ⟨none, true, todo,
      [⟨[⟨todo, "a", ""⟩, ⟨todo, "b", ""⟩, ⟨todo, "c", ""⟩], 1⟩, ⟨[], 0⟩, ⟨[], 0⟩], false⟩
    ⟨[⟨todo, "a", ""⟩, ⟨todo, "b", ""⟩, ⟨todo, "c", ""⟩], 1⟩ ⟨todo, "b", ""⟩
    (by decide) (by decide) rfl

/-! ## Advancing the selected task -/

theorem insertItemIntoSlice_mem (xs : List Task) (t : Task) (i : Int) :
    t ∈ insertItemIntoSlice xs t i := by
  unfold insertItemIntoSlice
  split <;> simp

theorem insertItemIntoSlice_length (xs : List Task) (t : Task) (i : Int) :
    (insertItemIntoSlice xs t i).length = xs.length + 1 := by
  unfold insertItemIntoSlice
  split
  · simp
  · simp only [List.length_append, List.length_cons, List.length_take, List.length_drop]
    omega

theorem insertItemIntoSlice_erase (xs : List Task) (t : Task) (i : Int) :
    ∃ k, k ≤ xs.length ∧ insertItemIntoSlice xs t i = xs.take k ++ t :: xs.drop k := by
  unfold insertItemIntoSlice
  split
  · exact ⟨xs.length, le_refl _, by simp⟩
  · rename_i h
    exact ⟨(max 0 i).toNat, by omega, rfl⟩

/-- C2: when the focused column has a selected task `t` whose status is the
focused column, `MoveToNext` returns normally; the focused column becomes its
former sequence with the selected element erased; the column of the next
status receives `t.Next` (same title and description, status the next one)
inserted among its former tasks, which keep their order; the third column and
the focus are unchanged.  The next status of todo is inProgress, of
inProgress is done, and of done is todo. -/
theorem moveToNext_transition (m : Model) (fl : ListModel) (t : Task)
    (hlen : m.lists.length = 3)
    (hfl : sliceGet m.lists m.focused.val = some fl)
    (hsel : fl.SelectedItem = some t)
    (hst : t.Estatus = m.focused) :
    ∃ m1 src1 dst dst1, m.MoveToNext = some m1 ∧
      fl.items[fl.index]? = some t ∧
      sliceGet m1.lists m.focused.val = some src1 ∧
      src1.items = fl.items.eraseIdx fl.index ∧
      sliceGet m.lists t.Next.Estatus.val = some dst ∧
      sliceGet m1.lists t.Next.Estatus.val = some dst1 ∧
      dst1.items = insertItemIntoSlice dst.items t.Next ((dst.items.length : Int) - 1) ∧
      (∃ k, k ≤ dst.items.length ∧
        dst1.items = dst.items.take k ++ t.Next :: dst.items.drop k) ∧
      t.Next ∈ dst1.items ∧
      t.Next.Etitle = t.Etitle ∧ t.Next.Edescription = t.Edescription ∧
      t.Next.Estatus ≠ m.focused ∧
      (m.focused = todo → t.Next.Estatus = inProgress) ∧
      (m.focused = inProgress → t.Next.Estatus = done) ∧
      (m.focused = done → t.Next.Estatus = todo) ∧
      (∀ s : status, s ≠ m.focused → s ≠ t.Next.Estatus →
        sliceGet m1.lists s.val = sliceGet m.lists s.val) ∧
      m1.lists.length = 3 ∧
      m1.focused = m.focused := by
  obtain ⟨hlt, hget⟩ := selectedItem_some hsel
  obtain ⟨a, b, c, habc⟩ := slice_three hlen
  have hfl2 := hfl
  rw [habc] at hfl2
  -- the next status differs from the focus and names an existing column
  have hnext : t.Next.Etitle = t.Etitle ∧ t.Next.Edescription = t.Edescription ∧
      t.Next.Estatus ≠ m.focused ∧
      (m.focused = todo → t.Next.Estatus = inProgress) ∧
      (m.focused = inProgress → t.Next.Estatus = done) ∧
      (m.focused = done → t.Next.Estatus = todo) ∧
      ∃ dst, sliceGet m.lists t.Next.Estatus.val = some dst := by
    rcases sliceGet_three hfl2 with ⟨hf, _⟩ | ⟨hf, _⟩ | ⟨hf, _⟩
    · rw [Task.Next_todo (hst.trans hf), hf, habc]
      exact ⟨rfl, rfl, status_ne.2.1, fun _ => rfl, fun h => absurd h status_ne.1,
        fun h => absurd h status_ne.2.2.1, b, rfl⟩
    · rw [Task.Next_inProgress (hst.trans hf), hf, habc]
      exact ⟨rfl, rfl, status_ne.2.2.2.2.2, fun h => absurd h status_ne.2.1,
        fun _ => rfl, fun h => absurd h status_ne.2.2.2.2.1, c, rfl⟩
    · rw [Task.Next_done (hst.trans hf), hf, habc]
      exact ⟨rfl, rfl, status_ne.2.2.1, fun h => absurd h status_ne.2.2.2.1,
        fun h => absurd h status_ne.2.2.2.2.2, fun _ => rfl, a, rfl⟩
  obtain ⟨ht, hd, hne, h0, h1, h2, dst, hdst⟩ := hnext
  have hne2 : t.Next.Estatus.val ≠ m.focused.val := fun h => hne (Subtype.ext h)
  have hdst1 : sliceGet (m.lists.set m.focused.val.toNat (fl.RemoveItem fl.Index))
      t.Next.Estatus.val = some dst := by
    rw [sliceGet_set_ne _ hfl hne2]; exact hdst
  refine ⟨{ m with lists := (List.set
      (m.lists.set m.focused.val.toNat (fl.RemoveItem fl.Index))
      t.Next.Estatus.val.toNat (dst.InsertItem ((dst.Items.length : Int) - 1) t.Next)) },
    fl.RemoveItem fl.Index, dst, dst.InsertItem ((dst.Items.length : Int) - 1) t.Next,
    ?_, hget, ?_, ?_, hdst, ?_, rfl, ?_, ?_, ht, hd, hne, h0, h1, h2, ?_, ?_, rfl⟩
  · simp [Model.MoveToNext, hfl, hsel, hst, sliceSet_of_get _ hfl, hdst1,
      sliceSet_of_get _ hdst1]
  · show sliceGet (List.set _ _ _) _ = _
    rw [sliceGet_set_ne _ hdst1 (Ne.symm hne2)]
    exact sliceGet_set_same _ hfl
  · simp [ListModel.RemoveItem, ListModel.Index, removeItemFromSlice_eq]
  · exact sliceGet_set_same _ hdst1
  · exact insertItemIntoSlice_erase _ _ _
  · exact insertItemIntoSlice_mem _ _ _
  · intro s hs hs2
    show sliceGet (List.set _ _ _) _ = _
    rw [sliceGet_set_ne _ hdst1 (fun h => hs2 (Subtype.ext h)),
      sliceGet_set_ne _ hfl (fun h => hs (Subtype.ext h))]
  · simp [hlen]

/-- Witness of C2: on `demoBoard` the selected task "y" of inProgress moves to
done. -/
theorem moveToNext_transition_witness :
    demoBoard.lists.length = 3 ∧
    sliceGet demoBoard.lists demoBoard.focused.val
      = some ⟨[⟨inProgress, "x", "p"⟩, ⟨inProgress, "y", "q"⟩], 1⟩ ∧
    (⟨[⟨inProgress, "x", "p"⟩, ⟨inProgress, "y", "q"⟩], 1⟩ : ListModel).SelectedItem
      = some ⟨inProgress, "y", "q"⟩ ∧
    ∃ m1 src1 dst dst1, demoBoard.MoveToNext = some m1 ∧
      ([⟨inProgress, "x", "p"⟩, ⟨inProgress, "y", "q"⟩] : List Task)[1]?
        = some ⟨inProgress, "y", "q"⟩ ∧
      sliceGet m1.lists demoBoard.focused.val = some src1 ∧
      src1.items = ([⟨inProgress, "x", "p"⟩, ⟨inProgress, "y", "q"⟩] : List Task).eraseIdx 1 ∧
      sliceGet demoBoard.lists (Task.Next ⟨inProgress, "y", "q"⟩).Estatus.val = some dst ∧
      sliceGet m1.lists (Task.Next ⟨inProgress, "y", "q"⟩).Estatus.val = some dst1 ∧
      dst1.items = insertItemIntoSlice dst.items (Task.Next ⟨inProgress, "y", "q"⟩)
        ((dst.items.length : Int) - 1) ∧
      (∃ k, k ≤ dst.items.length ∧
        dst1.items = dst.items.take k ++ Task.Next ⟨inProgress, "y", "q"⟩ :: dst.items.drop k) ∧
      Task.Next ⟨inProgress, "y", "q"⟩ ∈ dst1.items ∧
      (Task.Next ⟨inProgress, "y", "q"⟩).Etitle = "y" ∧
      (Task.Next ⟨inProgress, "y", "q"⟩).Edescription = "q" ∧
      (Task.Next ⟨inProgress, "y", "q"⟩).Estatus ≠ demoBoard.focused ∧
      (demoBoard.focused = todo → (Task.Next ⟨inProgress, "y", "q"⟩).Estatus = inProgress) ∧
      (demoBoard.focused = inProgress → (Task.Next ⟨inProgress, "y", "q"⟩).Estatus = done) ∧
      (demoBoard.focused = done → (Task.Next ⟨inProgress, "y", "q"⟩).Estatus = todo) ∧
      (∀ s : status, s ≠ demoBoard.focused → s ≠ (Task.Next ⟨inProgress, "y", "q"⟩).Estatus →
        sliceGet m1.lists s.val = sliceGet demoBoard.lists s.val) ∧
      m1.lists.length = 3 ∧
      m1.focused = demoBoard.focused :=
  ⟨by decide, by decide, by decide,
    moveToNext_transition demoBoard
      ⟨[⟨inProgress, "x", "p"⟩, ⟨inProgress, "y", "q"⟩], 1⟩ ⟨inProgress, "y", "q"⟩
      (by decide) (by decide) (by decide) rfl⟩

/-- C3, evaluated on the code: on `demoBoard` (destination column done holds
one task) `MoveToNext` inserts the advanced task in front of the task that
was already in done, so the advanced task is not the last element of the
destination column; the `case Task` branch of `Model.Update`, given the same
task, does put it last. -/
theorem moveToNext_inserts_before_last :
    demoBoard.MoveToNext = some { demoBoard with
      lists := [⟨[], 0⟩, ⟨[⟨inProgress, "x", "p"⟩], 1⟩,
        ⟨[⟨done, "y", "q"⟩, ⟨done, "z", "r"⟩], 0⟩] } ∧
    ([⟨done, "y", "q"⟩, ⟨done, "z", "r"⟩] : List Task).getLast? = some ⟨done, "z", "r"⟩ ∧
    ([⟨done, "y", "q"⟩, ⟨done, "z", "r"⟩] : List Task).getLast? ≠ some ⟨done, "y", "q"⟩ ∧
    demoBoard.UpdateTask ⟨done, "y", "q"⟩ = some { demoBoard with
      lists := [⟨[], 0⟩, ⟨[⟨inProgress, "x", "p"⟩, ⟨inProgress, "y", "q"⟩], 1⟩,
        ⟨[⟨done, "z", "r"⟩, ⟨done, "y", "q"⟩], 0⟩] } := by
  decide

/-! ## Form hand-off -/

theorem Form.Update_focused (eT eD : Msg → String → String) (f : Form) (msg : Msg) :
    (f.Update eT eD msg).form.focused = f.focused := by
  unfold Form.Update
  cases msg <;> simp only <;> (repeat' split) <;> rfl

theorem Form.run_focused (eT eD : Msg → String → String) (msgs : List Msg) :
    ∀ f : Form, (Form.run eT eD f msgs).focused = f.focused := by
  induction msgs with
  | nil => intro f; rfl
  | cons msg rest ih =>
    intro f
    simp only [Form.run]
    rw [ih, Form.Update_focused]

/-- C4: a form created by `NewForm s` and brought by any sequence of
messages to title value `T` and description value `D` creates the task with
status `s`, title `T` and description `D`; delivering that task to a board
with three columns (the `case Task` branch of `Model.Update`) returns
normally, makes the task the last element of column `s` behind the tasks
that were there, in their order, and leaves every other column and the
focus unchanged. -/
theorem form_handoff (eT eD : Msg → String → String) (s : status) (T D : String)
    (msgs : List Msg) (m : Model)
    (hs : s = todo ∨ s = inProgress ∨ s = done)
    (hlen : m.lists.length = 3)
    (hT : (Form.run eT eD (NewForm s) msgs).title.Value = T)
    (hD : (Form.run eT eD (NewForm s) msgs).description.Value = D) :
    (Form.run eT eD (NewForm s) msgs).CreateTask = NewTask s T D ∧
    (NewTask s T D).Estatus = s ∧ (NewTask s T D).Etitle = T ∧
    (NewTask s T D).Edescription = D ∧
    ∃ m1 col col1, m.UpdateTask (NewTask s T D) = some m1 ∧
      sliceGet m.lists s.val = some col ∧
      sliceGet m1.lists s.val = some col1 ∧
      col1.items = col.items ++ [NewTask s T D] ∧
      col1.items.getLast? = some (NewTask s T D) ∧
      (∀ s2 : status, s2 ≠ s → sliceGet m1.lists s2.val = sliceGet m.lists s2.val) ∧
      m1.lists.length = 3 ∧
      m1.focused = m.focused := by
  refine ⟨?_, rfl, rfl, rfl, ?_⟩
  · unfold Form.CreateTask
    rw [hT, hD, Form.run_focused]
    rfl
  · obtain ⟨a, b, c, habc⟩ := slice_three hlen
    have hcol : ∃ col, sliceGet m.lists s.val = some col := by
      rw [habc]
      rcases hs with rfl | rfl | rfl
      · exact ⟨a, rfl⟩
      · exact ⟨b, rfl⟩
      · exact ⟨c, rfl⟩
    obtain ⟨col, hcol⟩ := hcol
    have hcol2 : sliceGet m.lists (NewTask s T D).Estatus.val = some col := hcol
    refine ⟨{ m with lists := (m.lists.set s.val.toNat
        (col.InsertItem (col.Items.length : Int) (NewTask s T D))) },
      col, col.InsertItem (col.Items.length : Int) (NewTask s T D), ?_, hcol, ?_, ?_, ?_, ?_, ?_,
      rfl⟩
    · simp only [Model.UpdateTask, hcol2, sliceSet_of_get _ hcol2]
      rfl
    · exact sliceGet_set_same _ hcol
    · simp [ListModel.InsertItem, ListModel.Items, insertItemIntoSlice]
    · simp [ListModel.InsertItem, ListModel.Items, insertItemIntoSlice]
    · intro s2 hs2
      exact sliceGet_set_ne _ hcol (fun h => hs2 (Subtype.ext h))
    · simp [hlen]

/-- Witness of C4: status inProgress, title "T", description "D", typed into
the form and delivered to `demoBoard`. -/
theorem form_handoff_witness :
    (inProgress = todo ∨ inProgress = inProgress ∨ inProgress = done) ∧
    demoBoard.lists.length = 3 ∧
    (Form.run demoEdit demoEdit (NewForm inProgress)
      [Msg.KeyMsg "T", Msg.KeyMsg "enter", Msg.KeyMsg "D"]).title.Value = "T" ∧
    (Form.run demoEdit demoEdit (NewForm inProgress)
      [Msg.KeyMsg "T", Msg.KeyMsg "enter", Msg.KeyMsg "D"]).description.Value = "D" ∧
    (Form.run demoEdit demoEdit (NewForm inProgress)
      [Msg.KeyMsg "T", Msg.KeyMsg "enter", Msg.KeyMsg "D"]).CreateTask
        = NewTask inProgress "T" "D" ∧
    (NewTask inProgress "T" "D").Estatus = inProgress ∧
    (NewTask inProgress "T" "D").Etitle = "T" ∧
    (NewTask inProgress "T" "D").Edescription = "D" ∧
    ∃ m1 col col1, demoBoard.UpdateTask (NewTask inProgress "T" "D") = some m1 ∧
      sliceGet demoBoard.lists inProgress.val = some col ∧
      sliceGet m1.lists inProgress.val = some col1 ∧
      col1.items = col.items ++ [NewTask inProgress "T" "D"] ∧
      col1.items.getLast? = some (NewTask inProgress "T" "D") ∧
      (∀ s2 : status, s2 ≠ inProgress →
        sliceGet m1.lists s2.val = sliceGet demoBoard.lists s2.val) ∧
      m1.lists.length = 3 ∧
      m1.focused = demoBoard.focused :=
  ⟨by decide, by decide, by decide, by decide,
    form_handoff demoEdit demoEdit inProgress "T" "D"
      [Msg.KeyMsg "T", Msg.KeyMsg "enter", Msg.KeyMsg "D"] demoBoard
      (by decide) (by decide) (by decide) (by decide)⟩

/-! ## The form's focus state machine -/

theorem Form.Update_exactly_one (eT eD : Msg → String → String) (f : Form) (msg : Msg)
    (h : f.title.Focused ≠ f.description.Focused) :
    (f.Update eT eD msg).form.title.Focused ≠ (f.Update eT eD msg).form.description.Focused := by
  obtain ⟨q, fo, ⟨tv, tf⟩, ⟨dv, df⟩⟩ := f
  simp only [TextField.Focused] at h
  unfold Form.Update
  cases tf <;> cases df <;> simp at h <;> cases msg <;>
    simp only [TextField.Focused, TextField.Update, TextField.Blur, TextField.Focus] <;>
    (repeat' split) <;> simp_all

theorem Form.Reachable_exactly_one (eT eD : Msg → String → String) (s : status) (f : Form)
    (h : Form.Reachable eT eD s f) : f.title.Focused ≠ f.description.Focused := by
  induction h with
  | init => simp [NewForm, TextField.Focused, TextField.Focus, TextField.New]
  | step f msg _ ih => exact Form.Update_exactly_one eT eD f msg ih

theorem Form.Update_not_enter (eT eD : Msg → String → String) (f : Form) (msg : Msg)
    (h : msg ≠ Msg.KeyMsg "enter") (hf : f.title.Focused = true) :
    (f.Update eT eD msg).form.title.Focused = true := by
  obtain ⟨q, fo, ⟨tv, tf⟩, ⟨dv, df⟩⟩ := f
  simp only [TextField.Focused] at hf
  subst hf
  unfold Form.Update
  cases msg with
  | KeyMsg key =>
    have hk : key ≠ "enter" := fun hk => h (by rw [hk])
    simp only [TextField.Focused, TextField.Update, hk, if_false, if_true]
    split <;> rfl
  | _ => rfl

theorem Form.run_before_enter (eT eD : Msg → String → String) (pre : List Msg) :
    ∀ f : Form, Msg.KeyMsg "enter" ∉ pre → f.title.Focused = true →
      (Form.run eT eD f pre).title.Focused = true := by
  induction pre with
  | nil => intro f _ hf; exact hf
  | cons msg rest ih =>
    intro f hpre hf
    simp only [List.mem_cons, not_or] at hpre
    simp only [Form.run]
    exact ih _ hpre.2 (Form.Update_not_enter eT eD f msg (Ne.symm hpre.1) hf)

/-- C10: for a form of one lifecycle (created by `NewForm s`, then any
messages handled by `Form.Update`) and any further message: the title has
the focus initially; exactly one of title and description has the focus
before and after the message; a message that is neither enter nor ctrl+c is
handed to the focused field only (the other field is unchanged) and emits no
task; as long as no enter was handled the title keeps the focus, and enter
handled with the title focused blurs the title, focuses the description and
emits no task; once the title has lost the focus it never regains it; and a
task is emitted only by enter handled while the description is focused, and
then it is `CreateTask` of the form. -/
theorem form_focus_machine (eT eD : Msg → String → String) (s : status) (f : Form)
    (hf : Form.Reachable eT eD s f) (msg : Msg) :
    ((NewForm s).title.Focused = true ∧ (NewForm s).description.Focused = false) ∧
    f.title.Focused ≠ f.description.Focused ∧
    (f.Update eT eD msg).form.title.Focused ≠ (f.Update eT eD msg).form.description.Focused ∧
    (msg ≠ Msg.KeyMsg "enter" → msg ≠ Msg.KeyMsg "ctrl+c" →
      (f.Update eT eD msg).cmd = Cmd.field ∧ (f.Update eT eD msg).active = Active.form ∧
      (f.title.Focused = true →
        (f.Update eT eD msg).form.description = f.description ∧
        (f.Update eT eD msg).form.title = { f.title with value := eT msg f.title.value }) ∧
      (f.title.Focused = false →
        (f.Update eT eD msg).form.title = f.title ∧
        (f.Update eT eD msg).form.description =
          { f.description with value := eD msg f.description.value })) ∧
    (∀ pre : List Msg, Msg.KeyMsg "enter" ∉ pre →
      (Form.run eT eD (NewForm s) pre).title.Focused = true) ∧
    (msg = Msg.KeyMsg "enter" → f.title.Focused = true →
      (f.Update eT eD msg).form.title.Focused = false ∧
      (f.Update eT eD msg).form.description.Focused = true ∧
      (f.Update eT eD msg).form.title.Value = f.title.Value ∧
      (f.Update eT eD msg).form.description.Value = f.description.Value ∧
      (f.Update eT eD msg).cmd = Cmd.Blink ∧ (f.Update eT eD msg).active = Active.form) ∧
    (f.title.Focused = false → (f.Update eT eD msg).form.title.Focused = false) ∧
    (∀ t : Task, (f.Update eT eD msg).cmd = Cmd.CreateTask t →
      msg = Msg.KeyMsg "enter" ∧ f.description.Focused = true ∧ f.title.Focused = false ∧
      t = f.CreateTask ∧ (f.Update eT eD msg).active = Active.model) ∧
    (msg = Msg.KeyMsg "enter" → f.description.Focused = true →
      (f.Update eT eD msg).cmd = Cmd.CreateTask f.CreateTask) := by
  have hone := Form.Reachable_exactly_one eT eD s f hf
  refine ⟨⟨rfl, rfl⟩, hone, Form.Update_exactly_one eT eD f msg hone, ?_,
    fun pre hpre => Form.run_before_enter eT eD pre _ hpre rfl, ?_, ?_, ?_, ?_⟩
  all_goals
    obtain ⟨q, fo, ⟨tv, tf⟩, ⟨dv, df⟩⟩ := f
    simp only [TextField.Focused] at hone
    unfold Form.Update
    cases tf <;> cases df <;> simp at hone <;> cases msg <;>
      simp only [TextField.Focused, TextField.Update, TextField.Blur, TextField.Focus,
        TextField.Value] <;>
      (repeat' split) <;> simp_all

/-- Witness of C10: the fresh form for todo, handling enter. -/
theorem form_focus_machine_witness :
    Form.Reachable demoEdit demoEdit todo (NewForm todo) ∧
    (((NewForm todo).title.Focused = true ∧ (NewForm todo).description.Focused = false) ∧
    (NewForm todo).title.Focused ≠ (NewForm todo).description.Focused ∧
    ((NewForm todo).Update demoEdit demoEdit (Msg.KeyMsg "enter")).form.title.Focused ≠ ((NewForm todo).Update demoEdit demoEdit (Msg.KeyMsg "enter")).form.description.Focused ∧
    ((Msg.KeyMsg "enter") ≠ Msg.KeyMsg "enter" → (Msg.KeyMsg "enter") ≠ Msg.KeyMsg "ctrl+c" →
      ((NewForm todo).Update demoEdit demoEdit (Msg.KeyMsg "enter")).cmd = Cmd.field ∧ ((NewForm todo).Update demoEdit demoEdit (Msg.KeyMsg "enter")).active = Active.form ∧
      ((NewForm todo).title.Focused = true →
        ((NewForm todo).Update demoEdit demoEdit (Msg.KeyMsg "enter")).form.description = (NewForm todo).description ∧
        ((NewForm todo).Update demoEdit demoEdit (Msg.KeyMsg "enter")).form.title = { (NewForm todo).title with value := demoEdit (Msg.KeyMsg "enter") (NewForm todo).title.value }) ∧
      ((NewForm todo).title.Focused = false →
        ((NewForm todo).Update demoEdit demoEdit (Msg.KeyMsg "enter")).form.title = (NewForm todo).title ∧
        ((NewForm todo).Update demoEdit demoEdit (Msg.KeyMsg "enter")).form.description =
          { (NewForm todo).description with value := demoEdit (Msg.KeyMsg "enter") (NewForm todo).description.value })) ∧
    (∀ pre : List Msg, Msg.KeyMsg "enter" ∉ pre →
      (Form.run demoEdit demoEdit (NewForm todo) pre).title.Focused = true) ∧
    ((Msg.KeyMsg "enter") = Msg.KeyMsg "enter" → (NewForm todo).title.Focused = true →
      ((NewForm todo).Update demoEdit demoEdit (Msg.KeyMsg "enter")).form.title.Focused = false ∧
      ((NewForm todo).Update demoEdit demoEdit (Msg.KeyMsg "enter")).form.description.Focused = true ∧
      ((NewForm todo).Update demoEdit demoEdit (Msg.KeyMsg "enter")).form.title.Value = (NewForm todo).title.Value ∧
      ((NewForm todo).Update demoEdit demoEdit (Msg.KeyMsg "enter")).form.description.Value = (NewForm todo).description.Value ∧
      ((NewForm todo).Update demoEdit demoEdit (Msg.KeyMsg "enter")).cmd = Cmd.Blink ∧ ((NewForm todo).Update demoEdit demoEdit (Msg.KeyMsg "enter")).active = Active.form) ∧
    ((NewForm todo).title.Focused = false → ((NewForm todo).Update demoEdit demoEdit (Msg.KeyMsg "enter")).form.title.Focused = false) ∧
    (∀ t : Task, ((NewForm todo).Update demoEdit demoEdit (Msg.KeyMsg "enter")).cmd = Cmd.CreateTask t →
      (Msg.KeyMsg "enter") = Msg.KeyMsg "enter" ∧ (NewForm todo).description.Focused = true ∧ (NewForm todo).title.Focused = false ∧
      t = (NewForm todo).CreateTask ∧ ((NewForm todo).Update demoEdit demoEdit (Msg.KeyMsg "enter")).active = Active.model) ∧
    ((Msg.KeyMsg "enter") = Msg.KeyMsg "enter" → (NewForm todo).description.Focused = true →
      ((NewForm todo).Update demoEdit demoEdit (Msg.KeyMsg "enter")).cmd = Cmd.CreateTask (NewForm todo).CreateTask)) :=
  ⟨Form.Reachable.init,
    form_focus_machine demoEdit demoEdit todo (NewForm todo) Form.Reachable.init
      (Msg.KeyMsg "enter")⟩

/-! ## Snapshots -/

theorem list_set_same {α : Type} :
    ∀ (xs : List α) (i : Nat) (a : α), xs[i]? = some a → xs.set i a = xs
  | [], _, _, h => by simp at h
  | x :: xs, 0, a, h => by simp at h; simp [h]
  | x :: xs, i + 1, a, h => by
    simp only [List.getElem?_cons_succ] at h
    simp [list_set_same xs i a h]

theorem ConvertToTaskList_inner_eq (st : Nat) (items : List Task) :
    ∀ (taskList : List (List Task)) (cur : List Task), taskList[st]? = some cur →
      ConvertToTaskList.inner st items taskList = some (taskList.set st (cur ++ items)) := by
  induction items with
  | nil =>
    intro taskList cur h
    simp only [ConvertToTaskList.inner, List.append_nil]
    rw [list_set_same _ _ _ h]
  | cons t rest ih =>
    intro taskList cur h
    have hlt : st < taskList.length := by
      by_contra hc
      rw [List.getElem?_eq_none (by omega)] at h
      exact absurd h (by simp)
    simp only [ConvertToTaskList.inner, h]
    rw [ih (taskList.set st (cur ++ [t])) (cur ++ [t]) (by simp [hlt])]
    simp

theorem ConvertToTaskList_three (m : Model) (a b c : ListModel) (h : m.lists = [a, b, c]) :
    m.ConvertToTaskList = some [a.items, b.items, c.items] := by
  unfold Model.ConvertToTaskList
  rw [h]
  simp only [ConvertToTaskList.outer, ListModel.Items]
  rw [ConvertToTaskList_inner_eq 0 a.items [[], [], []] [] rfl]
  simp only [List.set_cons_zero, List.nil_append]
  rw [ConvertToTaskList_inner_eq 1 b.items [a.items, [], []] [] rfl]
  simp only [List.set_cons_succ, List.set_cons_zero, List.nil_append]
  rw [ConvertToTaskList_inner_eq 2 c.items [a.items, b.items, []] [] rfl]
  simp

theorem ImportTaskList_inner_eq (tl : List Task) :
    ∀ (i : Nat) (l : ListModel), l.items.length = i →
      ImportTaskList.inner i tl l = { l with items := l.items ++ tl } := by
  induction tl with
  | nil => intro i l _; simp [ImportTaskList.inner]
  | cons t rest ih =>
    intro i l h
    simp only [ImportTaskList.inner]
    rw [ih (i + 1) (l.InsertItem (i : Int) t)
      (by simp [ListModel.InsertItem, insertItemIntoSlice_length, h])]
    subst h
    simp [ListModel.InsertItem, insertItemIntoSlice_len]

theorem ImportTaskList_three (m : Model) (a b c : ListModel) (x y z : List Task)
    (h : m.lists = [a, b, c]) :
    m.ImportTaskList [x, y, z]
      = some { m with lists := [⟨x, a.index⟩, ⟨y, b.index⟩, ⟨z, c.index⟩] } := by
  unfold Model.ImportTaskList
  rw [h]
  simp [ImportTaskList.outer, ImportTaskList_inner_eq, ListModel.SetItems]

/-! ## Status/column agreement -/

theorem mem_insertItemIntoSlice {xs : List Task} {t x : Task} {i : Int}
    (h : x ∈ insertItemIntoSlice xs t i) : x = t ∨ x ∈ xs := by
  obtain ⟨k, _, hk⟩ := insertItemIntoSlice_erase xs t i
  rw [hk] at h
  simp only [List.mem_append, List.mem_cons] at h
  rcases h with h | h | h
  · exact Or.inr (List.mem_of_mem_take h)
  · exact Or.inl h
  · exact Or.inr (List.mem_of_mem_drop h)

theorem mem_removeItemFromSlice {xs : List Task} {x : Task} {i : Nat}
    (h : x ∈ removeItemFromSlice xs i) : x ∈ xs := by
  rw [removeItemFromSlice_eq] at h
  exact List.mem_of_mem_eraseIdx h

theorem selectedItem_mem {l : ListModel} {t : Task} (h : l.SelectedItem = some t) :
    t ∈ l.items := by
  obtain ⟨_, hget⟩ := selectedItem_some h
  exact List.getElem?_mem hget

theorem moveToNext_eq (m : Model) (fl dst : ListModel) (t : Task)
    (hfl : sliceGet m.lists m.focused.val = some fl)
    (hsel : fl.SelectedItem = some t)
    (hst : t.Estatus = m.focused)
    (hne : t.Next.Estatus ≠ m.focused)
    (hdst : sliceGet m.lists t.Next.Estatus.val = some dst) :
    m.MoveToNext = some { m with lists := (List.set
      (m.lists.set m.focused.val.toNat (fl.RemoveItem fl.Index))
      t.Next.Estatus.val.toNat (dst.InsertItem ((dst.Items.length : Int) - 1) t.Next)) } := by
  have hne2 : t.Next.Estatus.val ≠ m.focused.val := fun h => hne (Subtype.ext h)
  have hdst1 : sliceGet (m.lists.set m.focused.val.toNat (fl.RemoveItem fl.Index))
      t.Next.Estatus.val = some dst := by
    rw [sliceGet_set_ne _ hfl hne2]; exact hdst
  simp [Model.MoveToNext, hfl, hsel, hst, sliceSet_of_get _ hfl, hdst1,
    sliceSet_of_get _ hdst1]

theorem deleteTask_eq (m : Model) (fl : ListModel) (t : Task)
    (hfl : sliceGet m.lists m.focused.val = some fl)
    (hsel : fl.SelectedItem = some t)
    (hst : t.Estatus = m.focused) :
    m.DeleteTask = some { m with
      lists := (m.lists.set m.focused.val.toNat (fl.RemoveItem fl.Index)) } := by
  simp [Model.DeleteTask, hfl, hsel, hst, sliceSet_of_get _ hfl]

theorem updateTask_eq (m : Model) (col : ListModel) (t : Task)
    (hcol : sliceGet m.lists t.Estatus.val = some col) :
    m.UpdateTask t = some { m with
      lists := (m.lists.set t.Estatus.val.toNat (col.InsertItem (col.Items.length : Int) t)) } := by
  simp [Model.UpdateTask, hcol, sliceSet_of_get _ hcol]

theorem all_remove {l : ListModel} {s : status} (i : Nat)
    (h : ∀ t ∈ l.items, t.Estatus = s) : ∀ t ∈ (l.RemoveItem i).items, t.Estatus = s :=
  fun t ht => h t (mem_removeItemFromSlice ht)

theorem all_insert {l : ListModel} {s : status} (i : Int) (x : Task) (hx : x.Estatus = s)
    (h : ∀ t ∈ l.items, t.Estatus = s) : ∀ t ∈ (l.InsertItem i x).items, t.Estatus = s := by
  intro t ht
  rcases mem_insertItemIntoSlice ht with rfl | ht
  · exact hx
  · exact h t ht

/-- The invariant behind C8 in explicit form. -/
theorem Model.Reachable_inv (m : Model) (h : Model.Reachable m) :
    ∃ a b c, m.lists = [a, b, c] ∧
      (∀ t ∈ a.items, t.Estatus = todo) ∧
      (∀ t ∈ b.items, t.Estatus = inProgress) ∧
      (∀ t ∈ c.items, t.Estatus = done) ∧
      (m.focused = todo ∨ m.focused = inProgress ∨ m.focused = done) := by
  induction h with
  | init db loaded quitting =>
    exact ⟨_, _, _, rfl, by simp, by simp, by simp, Or.inl rfl⟩
  | next m _ ih =>
    obtain ⟨a, b, c, hl, ha, hb, hc, hf⟩ := ih
    refine ⟨a, b, c, ?_, ha, hb, hc, ?_⟩
    · rw [← hl]; unfold Model.Next; split <;> rfl
    · rcases hf with hf | hf | hf
      · right; left; unfold Model.Next; rw [hf]; rfl
      · right; right; unfold Model.Next; rw [hf]; rfl
      · left; unfold Model.Next; rw [hf]; rfl
  | prev m _ ih =>
    obtain ⟨a, b, c, hl, ha, hb, hc, hf⟩ := ih
    refine ⟨a, b, c, ?_, ha, hb, hc, ?_⟩
    · rw [← hl]; unfold Model.Prev; split <;> rfl
    · rcases hf with hf | hf | hf
      · right; right; unfold Model.Prev; rw [hf]; rfl
      · left; unfold Model.Prev; rw [hf]; rfl
      · right; left; unfold Model.Prev; rw [hf]; rfl
  | moveToNext m m1 _ hm ih =>
    obtain ⟨a, b, c, hl, ha, hb, hc, hf⟩ := ih
    rcases hf with hf | hf | hf
    · have hfl : sliceGet m.lists m.focused.val = some a := by rw [hl, hf]; rfl
      cases hsel : a.SelectedItem with
      | none =>
        simp only [Model.MoveToNext, hfl, hsel, Option.some.injEq] at hm
        subst hm
        exact ⟨a, b, c, hl, ha, hb, hc, Or.inl hf⟩
      | some t =>
        have hst : t.Estatus = todo := ha t (selectedItem_mem hsel)
        have hn := Task.Next_todo hst
        rw [moveToNext_eq m a b t hfl hsel (hst.trans hf.symm)
          (by rw [hn, hf]; exact status_ne.2.1) (by rw [hn, hl]; rfl)] at hm
        cases hm
        refine ⟨a.RemoveItem a.Index, b.InsertItem ((b.Items.length : Int) - 1) t.Next, c, ?_,
          all_remove _ ha, all_insert _ _ (by rw [hn]) hb, hc, Or.inl hf⟩
        simp only [hl, hf, hn]
        rfl
    · have hfl : sliceGet m.lists m.focused.val = some b := by rw [hl, hf]; rfl
      cases hsel : b.SelectedItem with
      | none =>
        simp only [Model.MoveToNext, hfl, hsel, Option.some.injEq] at hm
        subst hm
        exact ⟨a, b, c, hl, ha, hb, hc, Or.inr (Or.inl hf)⟩
      | some t =>
        have hst : t.Estatus = inProgress := hb t (selectedItem_mem hsel)
        have hn := Task.Next_inProgress hst
        rw [moveToNext_eq m b c t hfl hsel (hst.trans hf.symm)
          (by rw [hn, hf]; exact status_ne.2.2.2.2.2) (by rw [hn, hl]; rfl)] at hm
        cases hm
        refine ⟨a, b.RemoveItem b.Index, c.InsertItem ((c.Items.length : Int) - 1) t.Next, ?_,
          ha, all_remove _ hb, all_insert _ _ (by rw [hn]) hc, Or.inr (Or.inl hf)⟩
        simp only [hl, hf, hn]
        rfl
    · have hfl : sliceGet m.lists m.focused.val = some c := by rw [hl, hf]; rfl
      cases hsel : c.SelectedItem with
      | none =>
        simp only [Model.MoveToNext, hfl, hsel, Option.some.injEq] at hm
        subst hm
        exact ⟨a, b, c, hl, ha, hb, hc, Or.inr (Or.inr hf)⟩
      | some t =>
        have hst : t.Estatus = done := hc t (selectedItem_mem hsel)
        have hn := Task.Next_done hst
        rw [moveToNext_eq m c a t hfl hsel (hst.trans hf.symm)
          (by rw [hn, hf]; exact status_ne.2.2.1) (by rw [hn, hl]; rfl)] at hm
        cases hm
        refine ⟨a.InsertItem ((a.Items.length : Int) - 1) t.Next, b, c.RemoveItem c.Index, ?_,
          all_insert _ _ (by rw [hn]) ha, hb, all_remove _ hc, Or.inr (Or.inr hf)⟩
        simp only [hl, hf, hn]
        rfl
  | deleteTask m m1 _ hm ih =>
    obtain ⟨a, b, c, hl, ha, hb, hc, hf⟩ := ih
    rcases hf with hf | hf | hf
    · have hfl : sliceGet m.lists m.focused.val = some a := by rw [hl, hf]; rfl
      cases hsel : a.SelectedItem with
      | none =>
        simp only [Model.DeleteTask, hfl, hsel, Option.some.injEq] at hm
        subst hm
        exact ⟨a, b, c, hl, ha, hb, hc, Or.inl hf⟩
      | some t =>
        have hst : t.Estatus = todo := ha t (selectedItem_mem hsel)
        rw [deleteTask_eq m a t hfl hsel (hst.trans hf.symm)] at hm
        cases hm
        refine ⟨a.RemoveItem a.Index, b, c, ?_, all_remove _ ha, hb, hc, Or.inl hf⟩
        simp only [hl, hf]
        rfl
    · have hfl : sliceGet m.lists m.focused.val = some b := by rw [hl, hf]; rfl
      cases hsel : b.SelectedItem with
      | none =>
        simp only [Model.DeleteTask, hfl, hsel, Option.some.injEq] at hm
        subst hm
        exact ⟨a, b, c, hl, ha, hb, hc, Or.inr (Or.inl hf)⟩
      | some t =>
        have hst : t.Estatus = inProgress := hb t (selectedItem_mem hsel)
        rw [deleteTask_eq m b t hfl hsel (hst.trans hf.symm)] at hm
        cases hm
        refine ⟨a, b.RemoveItem b.Index, c, ?_, ha, all_remove _ hb, hc, Or.inr (Or.inl hf)⟩
        simp only [hl, hf]
        rfl
    · have hfl : sliceGet m.lists m.focused.val = some c := by rw [hl, hf]; rfl
      cases hsel : c.SelectedItem with
      | none =>
        simp only [Model.DeleteTask, hfl, hsel, Option.some.injEq] at hm
        subst hm
        exact ⟨a, b, c, hl, ha, hb, hc, Or.inr (Or.inr hf)⟩
      | some t =>
        have hst : t.Estatus = done := hc t (selectedItem_mem hsel)
        rw [deleteTask_eq m c t hfl hsel (hst.trans hf.symm)] at hm
        cases hm
        refine ⟨a, b, c.RemoveItem c.Index, ?_, ha, hb, all_remove _ hc, Or.inr (Or.inr hf)⟩
        simp only [hl, hf]
        rfl
  | task m m1 t _ ht hm ih =>
    obtain ⟨a, b, c, hl, ha, hb, hc, hf⟩ := ih
    rcases ht with ht | ht | ht
    · rw [updateTask_eq m a t (by rw [hl, ht]; rfl)] at hm
      cases hm
      refine ⟨a.InsertItem (a.Items.length : Int) t, b, c, ?_, all_insert _ _ ht ha, hb, hc, hf⟩
      simp only [hl, ht]
      rfl
    · rw [updateTask_eq m b t (by rw [hl, ht]; rfl)] at hm
      cases hm
      refine ⟨a, b.InsertItem (b.Items.length : Int) t, c, ?_, ha, all_insert _ _ ht hb, hc, hf⟩
      simp only [hl, ht]
      rfl
    · rw [updateTask_eq m c t (by rw [hl, ht]; rfl)] at hm
      cases hm
      refine ⟨a, b, c.InsertItem (c.Items.length : Int) t, ?_, ha, hb, all_insert _ _ ht hc, hf⟩
      simp only [hl, ht]
      rfl
  | importTaskList m m0 m1 snapshot _ _ hs hm ih ih0 =>
    obtain ⟨a, b, c, hl, ha, hb, hc, hf⟩ := ih
    obtain ⟨a0, b0, c0, hl0, ha0, hb0, hc0, _⟩ := ih0
    rw [ConvertToTaskList_three m0 a0 b0 c0 hl0] at hs
    cases hs
    rw [ImportTaskList_three m a b c _ _ _ hl] at hm
    cases hm
    exact ⟨_, _, _, rfl, ha0, hb0, hc0, hf⟩
  | cursor m lists1 _ hmap ih =>
    obtain ⟨a, b, c, hl, ha, hb, hc, hf⟩ := ih
    rw [hl] at hmap
    have hlen : lists1.length = 3 := by
      have := congrArg List.length hmap
      simpa using this
    obtain ⟨a1, b1, c1, h1⟩ := slice_three hlen
    subst h1
    simp only [List.map_cons, List.map_nil, List.cons.injEq, and_true] at hmap
    obtain ⟨h1, h2, h3⟩ := hmap
    exact ⟨a1, b1, c1, rfl, by rw [h1]; exact ha, by rw [h2]; exact hb,
      by rw [h3]; exact hc, hf⟩

/-! ## JSON: numbers -/

theorem digit_char_toNat (k : Nat) (h : k < 10) : (Char.ofNat (48 + k)).toNat = 48 + k := by
  interval_cases k <;> rfl

theorem digit_char_isDigit (k : Nat) (h : k < 10) : isDigit (Char.ofNat (48 + k)) = true := by
  interval_cases k <;> rfl

theorem digit_char_ne_zero (k : Nat) (h : k < 10) (h0 : 0 < k) : Char.ofNat (48 + k) ≠ '0' := by
  interval_cases k <;> decide

theorem encodeNatAux_fuel : ∀ (f1 f2 n : Nat) (acc : List Char), n < f1 → n < f2 →
    encodeNatAux f1 n acc = encodeNatAux f2 n acc := by
  intro f1
  induction f1 with
  | zero => intro f2 n acc h; omega
  | succ k ih =>
    intro f2 n acc h1 h2
    cases f2 with
    | zero => omega
    | succ j =>
      simp only [encodeNatAux]
      split
      · rfl
      · exact ih j (n / 10) _ (by omega) (by omega)

theorem encodeNatAux_acc : ∀ (f n : Nat) (acc : List Char), n < f →
    encodeNatAux f n acc = encodeNatAux f n [] ++ acc := by
  intro f
  induction f with
  | zero => intro n acc h; omega
  | succ k ih =>
    intro n acc h
    simp only [encodeNatAux]
    split
    · rfl
    · rw [ih (n / 10) (_ :: acc) (by omega), ih (n / 10) [_] (by omega)]
      simp

theorem encodeNat_lt (n : Nat) (h : n < 10) : encodeNat n = [Char.ofNat (48 + n)] := by
  simp [encodeNat, encodeNatAux, h]

theorem encodeNat_ge (n : Nat) (h : 10 ≤ n) :
    encodeNat n = encodeNat (n / 10) ++ [Char.ofNat (48 + n % 10)] := by
  have h1 : ¬ n < 10 := by omega
  have h2 : encodeNat n = encodeNatAux n (n / 10) [Char.ofNat (48 + n % 10)] := by
    simp [encodeNat, encodeNatAux, h1]
  rw [h2, encodeNatAux_acc n (n / 10) _ (by omega),
    encodeNatAux_fuel n (n / 10 + 1) (n / 10) [] (by omega) (by omega)]
  rfl

theorem digitsVal_append (ds : List Char) (c : Char) :
    digitsVal (ds ++ [c]) = digitsVal ds * 10 + (c.toNat - 48) := by
  simp [digitsVal, List.foldl_append]

theorem digitsVal_encodeNat (n : Nat) : digitsVal (encodeNat n) = n := by
  induction n using Nat.strong_induction_on with
  | _ n ih =>
    by_cases h : n < 10
    · rw [encodeNat_lt n h]
      simp [digitsVal, digit_char_toNat n h]
    · rw [encodeNat_ge n (by omega), digitsVal_append, ih (n / 10) (by omega),
        digit_char_toNat _ (Nat.mod_lt _ (by omega))]
      omega

theorem encodeNat_digits (n : Nat) : (encodeNat n).all isDigit = true := by
  induction n using Nat.strong_induction_on with
  | _ n ih =>
    by_cases h : n < 10
    · rw [encodeNat_lt n h]
      simp [digit_char_isDigit n h]
    · rw [encodeNat_ge n (by omega), List.all_append, ih (n / 10) (by omega)]
      simp [digit_char_isDigit _ (Nat.mod_lt n (by omega : 0 < 10))]

theorem encodeNat_shape (n : Nat) :
    (n = 0 ∧ encodeNat n = ['0']) ∨
    (0 < n ∧ ∃ d r, encodeNat n = d :: r ∧ d ≠ '0' ∧ isDigit d = true ∧ r.all isDigit = true) := by
  induction n using Nat.strong_induction_on with
  | _ n ih =>
    by_cases h : n < 10
    · rw [encodeNat_lt n h]
      by_cases h0 : n = 0
      · left; subst h0; exact ⟨rfl, rfl⟩
      · right
        exact ⟨by omega, _, [], rfl, digit_char_ne_zero n h (by omega), digit_char_isDigit n h, rfl⟩
    · right
      refine ⟨by omega, ?_⟩
      rw [encodeNat_ge n (by omega)]
      rcases ih (n / 10) (by omega) with ⟨h0, _⟩ | ⟨_, d, r, hd, hne, hdig, hr⟩
      · omega
      · rw [hd]
        refine ⟨d, r ++ [Char.ofNat (48 + n % 10)], rfl, hne, hdig, ?_⟩
        rw [List.all_append, hr]
        simp [digit_char_isDigit _ (Nat.mod_lt n (by omega : 0 < 10))]

theorem isDigit_isNumChar {c : Char} (h : isDigit c = true) : isNumChar c = true := by
  simp [isNumChar, h]

theorem encodeInt_numChars (z : Int) : ∀ c ∈ encodeInt z, isNumChar c = true := by
  have hd : ∀ c ∈ encodeNat z.natAbs, isNumChar c = true := fun c hc =>
    isDigit_isNumChar (List.all_eq_true.mp (encodeNat_digits _) c hc)
  unfold encodeInt
  split
  · intro c hc
    rcases List.mem_cons.mp hc with rfl | hc
    · rfl
    · exact hd c hc
  · exact hd

theorem validInt_encodeNat (n : Nat) : validInt (encodeNat n) = true := by
  rcases encodeNat_shape n with ⟨_, h⟩ | ⟨_, d, r, h, hne, hd, hr⟩
  · rw [h]; rfl
  · rw [h]
    have hr2 : r.dropWhile isDigit = [] := by
      rw [List.dropWhile_eq_nil_iff]
      exact List.all_eq_true.mp hr
    simp [validInt, hne, hd, hr2, validFrac]

theorem validNumber_encodeInt (z : Int) : validNumber (encodeInt z) = true := by
  unfold encodeInt
  split
  · simp [validNumber, validInt_encodeNat]
  · rcases encodeNat_shape z.natAbs with ⟨_, h⟩ | ⟨_, d, r, h, hne, hd, hr⟩
    · rw [h]; rfl
    · have hv := validInt_encodeNat z.natAbs
      rw [h] at hv ⊢
      have hm : d ≠ '-' := by
        intro hm; subst hm; exact absurd hd (by decide)
      simp [validNumber, hm, hv]

theorem lexNumber_encodeInt (z : Int) (rest : List Char) :
    lexNumber (encodeInt z ++ ',' :: rest) = some (encodeInt z, ',' :: rest) := by
  have h1 : (encodeInt z ++ ',' :: rest).takeWhile isNumChar = encodeInt z := by
    rw [List.takeWhile_append_of_pos (encodeInt_numChars z)]
    simp [isNumChar, isDigit]
  have h2 : (encodeInt z ++ ',' :: rest).dropWhile isNumChar = ',' :: rest := by
    rw [List.dropWhile_append_of_pos (encodeInt_numChars z)]
    simp [isNumChar, isDigit]
  simp [lexNumber, h1, h2, validNumber_encodeInt]

theorem encodeInt_head (z : Int) :
    ∃ c r, encodeInt z = c :: r ∧ (c = '-' ∨ isDigit c = true) := by
  unfold encodeInt
  split
  · exact ⟨'-', _, rfl, Or.inl rfl⟩
  · rcases encodeNat_shape z.natAbs with ⟨_, h⟩ | ⟨_, d, r, h, _, hd, _⟩
    · exact ⟨'0', [], h, Or.inr rfl⟩
    · exact ⟨d, r, h, Or.inr hd⟩

theorem parseInt_encodeInt (z : GoInt) : parseInt (encodeInt z.val) = some z := by
  obtain ⟨z, hz⟩ := z
  simp only
  have hall := encodeNat_digits z.natAbs
  have hval := digitsVal_encodeNat z.natAbs
  by_cases hneg : z < 0
  · have he : encodeInt z = '-' :: encodeNat z.natAbs := by simp [encodeInt, hneg]
    have hne : encodeNat z.natAbs ≠ [] := by
      rcases encodeNat_shape z.natAbs with ⟨_, h⟩ | ⟨_, d, r, h, _⟩ <;> simp [h]
    have hv : -((z.natAbs : Nat) : Int) = z := by omega
    simp [parseInt, he, hall, hval, hne, abs_of_neg hneg]
    omega
  · have he : encodeInt z = encodeNat z.natAbs := by simp [encodeInt, hneg]
    rcases encodeNat_shape z.natAbs with ⟨_, h⟩ | ⟨_, d, r, h, hne0, hd, hr⟩
    · have hz0 : z = 0 := by omega
      subst hz0
      rw [he, h]
      rfl
    · have hm : d ≠ '-' := by
        intro hm; subst hm; exact absurd hd (by decide)
      have hp : d ≠ '+' := by
        intro hm; subst hm; exact absurd hd (by decide)
      have hv : ((z.natAbs : Nat) : Int) = z := by omega
      rw [h] at hall hval
      simp [parseInt, he, h, hm, hp, hall, hval, abs_of_nonneg (not_lt.mp hneg)]
      omega

/-! ## JSON: strings -/

theorem hexVal_hexDigit : ∀ k, k < 16 → hexVal (hexDigit k) = some k := by decide

theorem getu4_ascii (n : Nat) (h : n < 256) :
    getu4 '0' '0' (hexDigit (n / 16)) (hexDigit (n % 16)) = some n := by
  have h1 := hexVal_hexDigit (n / 16) (by omega)
  have h2 := hexVal_hexDigit (n % 16) (by omega)
  have h0 : hexVal '0' = some 0 := by decide
  simp only [getu4, h0, h1, h2]
  congr 1
  omega

theorem lexString_escapeChar (c : Char) (rest acc : List Char) :
    lexString (escapeChar c ++ rest) acc none = lexString rest (acc ++ [c]) none := by
  unfold escapeChar
  split
  · rename_i h
    rcases h with rfl | rfl <;>
      (rw [List.cons_append, lexString.eq_def]; simp [unescape, flushPending])
  split
  · rename_i h; subst h
    rw [List.cons_append, lexString.eq_def]; simp [unescape, flushPending]
  split
  · rename_i h; subst h
    rw [List.cons_append, lexString.eq_def]; simp [unescape, flushPending]
  split
  · rename_i h; subst h
    rw [List.cons_append, lexString.eq_def]; simp [unescape, flushPending]
  split
  · rename_i h; subst h
    rw [List.cons_append, lexString.eq_def]; simp [unescape, flushPending]
  split
  · rename_i h; subst h
    rw [List.cons_append, lexString.eq_def]; simp [unescape, flushPending]
  split
  · rename_i h
    have hlt : c.toNat < 256 := by
      rcases h with h | rfl | rfl | rfl
      · omega
      · decide
      · decide
      · decide
    simp only [List.cons_append, List.nil_append]
    rw [lexString.eq_def]
    simp only [show ('\\' : Char) ≠ '"' by decide, if_false, if_true]
    rw [getu4_ascii c.toNat hlt]
    simp only [flushPending, Char.ofNat_toNat]
    have h1 : ¬ (56320 ≤ c.toNat ∧ c.toNat < 57344) := by omega
    have h2 : ¬ (55296 ≤ c.toNat ∧ c.toNat < 56320) := by omega
    simp [h1, h2]
  split
  · rename_i h
    rcases h with rfl | rfl <;>
      (rw [List.cons_append, lexString.eq_def]; simp [flushPending]; rfl)
  · rename_i h1 h2 h3 h4 h5 h6 h7 h8
    simp only [not_or] at h1 h7
    have hc : ¬ c.toNat < 32 := h7.1
    rw [List.cons_append, lexString.eq_def]
    simp [flushPending, h1.1, h1.2, hc]

theorem lexString_escape (s : List Char) :
    ∀ (rest acc : List Char),
      lexString (s.flatMap escapeChar ++ '"' :: rest) acc none = some (acc ++ s, rest) := by
  induction s with
  | nil =>
    intro rest acc
    rw [List.flatMap_nil, List.nil_append, lexString.eq_def]
    simp [flushPending]
  | cons c s ih =>
    intro rest acc
    rw [List.flatMap_cons, List.append_assoc, lexString_escapeChar, ih]
    simp

theorem lexString_encodeString (s : String) (rest : List Char) :
    ∃ body, encodeString s ++ rest = '"' :: body ∧
      lexString body [] none = some (s.data, rest) := by
  refine ⟨s.data.flatMap escapeChar ++ '"' :: rest, ?_, ?_⟩
  · simp [encodeString]
  · simpa using lexString_escape s.data rest []

theorem lexString_length_aux : ∀ (n : Nat) (cs acc : List Char) (p : Option Nat)
    (s rest : List Char), cs.length ≤ n → lexString cs acc p = some (s, rest) →
    rest.length < cs.length := by
  intro n
  induction n with
  | zero =>
    intro cs acc p s rest hlen h
    cases cs with
    | nil => rw [lexString.eq_def] at h; simp at h
    | cons c t => simp at hlen
  | succ k ih =>
    intro cs acc p s rest hlen h
    cases cs with
    | nil => rw [lexString.eq_def] at h; simp at h
    | cons c t =>
      rw [lexString.eq_def] at h
      simp only at h
      simp only [List.length_cons] at hlen ⊢
      repeat' (split at h)
      all_goals (try simp only [List.length_cons] at hlen ⊢)
      all_goals first
        | (simp at h; done)
        | (have h2 := ih _ _ _ _ _ (by omega) h; omega)
        | (injection h with h; injection h with _ h; subst h; omega)

theorem lexString_length {cs acc : List Char} {p : Option Nat} {s rest : List Char}
    (h : lexString cs acc p = some (s, rest)) : rest.length < cs.length :=
  lexString_length_aux cs.length cs acc p s rest (le_refl _) h

theorem lexNumber_length {cs lit rest : List Char} (h : lexNumber cs = some (lit, rest)) :
    rest.length ≤ cs.length := by
  unfold lexNumber at h
  split at h
  · injection h with h; injection h with _ h; subst h
    exact (List.dropWhile_sublist _).length_le
  · exact absurd h (by simp)

theorem lex_fuel : ∀ (n m : Nat) (cs : List Char), cs.length < n → cs.length < m →
    lex n cs = lex m cs := by
  intro n
  induction n with
  | zero => intro m cs h; omega
  | succ k ih =>
    intro m cs h1 h2
    cases m with
    | zero => omega
    | succ j =>
      cases cs with
      | nil => rfl
      | cons c rest =>
        simp only [List.length_cons] at h1 h2
        have hr := ih j rest (by omega) (by omega)
        have hd : ∀ d, lex k (rest.drop d) = lex j (rest.drop d) := fun d =>
          ih j _ (by simp only [List.length_drop]; omega)
            (by simp only [List.length_drop]; omega)
        simp only [lex, hr, hd]
        have hs : (match lexString rest [] none with
            | none => none
            | some (s, rest1) => (lex k rest1).map (fun ts => Token.str s :: ts)) =
          (match lexString rest [] none with
            | none => none
            | some (s, rest1) => (lex j rest1).map (fun ts => Token.str s :: ts)) := by
          cases hl : lexString rest [] none with
          | none => rfl
          | some pr =>
            obtain ⟨s, rest1⟩ := pr
            have := lexString_length hl
            simp only
            rw [ih j rest1 (by omega) (by omega)]
        have hn : (match lexNumber (c :: rest) with
            | none => none
            | some (lit, rest1) => (lex k rest1).map (fun ts => Token.num lit :: ts)) =
          (match lexNumber (c :: rest) with
            | none => none
            | some (lit, rest1) => (lex j rest1).map (fun ts => Token.num lit :: ts)) := by
          cases hl : lexNumber (c :: rest) with
          | none => rfl
          | some pr =>
            obtain ⟨lit, rest1⟩ := pr
            have := lexNumber_length hl
            simp only [List.length_cons] at this
            simp only
            by_cases hc : isNumChar c = true
            · have hlt : rest1.length ≤ rest.length := by
                unfold lexNumber at hl
                split at hl
                · injection hl with hl; injection hl with _ hl
                  rw [List.dropWhile_cons_of_pos hc] at hl
                  subst hl
                  exact (List.dropWhile_sublist _).length_le
                · exact absurd hl (by simp)
              rw [ih j rest1 (by omega) (by omega)]
            · exfalso
              unfold lexNumber at hl
              rw [List.takeWhile_cons_of_neg hc] at hl
              simp [validNumber] at hl
        rw [hs, hn]

/-! ## JSON: the scanner on encoded text -/

theorem lex_succ_fuel (k : Nat) (rest : List Char) (h : rest.length < k) :
    lex k rest = lex (k + 1) rest := lex_fuel k (k + 1) rest h (by omega)

theorem lex_lbracket (n : Nat) (rest : List Char) (h : ('[' :: rest).length < n) :
    lex n ('[' :: rest) = (lex n rest).map (fun ts => Token.lbracket :: ts) := by
  obtain ⟨k, rfl⟩ : ∃ k, n = k + 1 := ⟨n - 1, by simp at h; omega⟩
  simp only [List.length_cons] at h
  rw [← lex_succ_fuel k rest (by omega)]
  simp [lex, isSpace]

theorem lex_rbracket (n : Nat) (rest : List Char) (h : (']' :: rest).length < n) :
    lex n (']' :: rest) = (lex n rest).map (fun ts => Token.rbracket :: ts) := by
  obtain ⟨k, rfl⟩ : ∃ k, n = k + 1 := ⟨n - 1, by simp at h; omega⟩
  simp only [List.length_cons] at h
  rw [← lex_succ_fuel k rest (by omega)]
  simp [lex, isSpace]

theorem lex_lbrace (n : Nat) (rest : List Char) (h : ('\x7b' :: rest).length < n) :
    lex n ('\x7b' :: rest) = (lex n rest).map (fun ts => Token.lbrace :: ts) := by
  obtain ⟨k, rfl⟩ : ∃ k, n = k + 1 := ⟨n - 1, by simp at h; omega⟩
  simp only [List.length_cons] at h
  rw [← lex_succ_fuel k rest (by omega)]
  simp [lex, isSpace]

theorem lex_rbrace (n : Nat) (rest : List Char) (h : ('\x7d' :: rest).length < n) :
    lex n ('\x7d' :: rest) = (lex n rest).map (fun ts => Token.rbrace :: ts) := by
  obtain ⟨k, rfl⟩ : ∃ k, n = k + 1 := ⟨n - 1, by simp at h; omega⟩
  simp only [List.length_cons] at h
  rw [← lex_succ_fuel k rest (by omega)]
  simp [lex, isSpace]

theorem lex_comma (n : Nat) (rest : List Char) (h : (',' :: rest).length < n) :
    lex n (',' :: rest) = (lex n rest).map (fun ts => Token.comma :: ts) := by
  obtain ⟨k, rfl⟩ : ∃ k, n = k + 1 := ⟨n - 1, by simp at h; omega⟩
  simp only [List.length_cons] at h
  rw [← lex_succ_fuel k rest (by omega)]
  simp [lex, isSpace]

theorem lex_colon (n : Nat) (rest : List Char) (h : (':' :: rest).length < n) :
    lex n (':' :: rest) = (lex n rest).map (fun ts => Token.colon :: ts) := by
  obtain ⟨k, rfl⟩ : ∃ k, n = k + 1 := ⟨n - 1, by simp at h; omega⟩
  simp only [List.length_cons] at h
  rw [← lex_succ_fuel k rest (by omega)]
  simp [lex, isSpace]

theorem lex_quoted (n : Nat) (body s rest : List Char)
    (hb : lexString body [] none = some (s, rest)) (h : ('"' :: body).length < n) :
    lex n ('"' :: body) = (lex n rest).map (fun ts => Token.str s :: ts) := by
  obtain ⟨k, rfl⟩ : ∃ k, n = k + 1 := ⟨n - 1, by simp at h; omega⟩
  simp only [List.length_cons] at h
  have hl := lexString_length hb
  rw [← lex_succ_fuel k rest (by omega)]
  simp [lex, isSpace, hb]

theorem lex_encodeString (n : Nat) (s : String) (rest : List Char)
    (h : (encodeString s ++ rest).length < n) :
    lex n (encodeString s ++ rest) = (lex n rest).map (fun ts => Token.str s.data :: ts) := by
  obtain ⟨body, hb, hl⟩ := lexString_encodeString s rest
  rw [hb] at h ⊢
  exact lex_quoted n body s.data rest hl h

theorem lex_encodeInt (n : Nat) (z : Int) (rest : List Char)
    (h : (encodeInt z ++ ',' :: rest).length < n) :
    lex n (encodeInt z ++ ',' :: rest) =
      (lex n (',' :: rest)).map (fun ts => Token.num (encodeInt z) :: ts) := by
  obtain ⟨k, rfl⟩ : ∃ k, n = k + 1 := ⟨n - 1, by omega⟩
  have hnum := lexNumber_encodeInt z rest
  obtain ⟨c, r, hc, hhead⟩ := encodeInt_head z
  have hlen : (',' :: rest).length < k := by
    rw [hc] at h
    simp only [List.length_append, List.length_cons] at h ⊢
    omega
  rw [← lex_succ_fuel k _ hlen]
  rw [hc] at hnum ⊢
  rw [List.cons_append] at hnum ⊢
  have hcases : (c = '-' ∨ isDigit c = true) := hhead
  have hne : ∀ d : Char, d ≠ '-' → isDigit d = false → c ≠ d := by
    intro d hd1 hd2 hcd
    subst hcd
    rcases hhead with h1 | h1
    · exact hd1 h1
    · rw [hd2] at h1; exact absurd h1 (by decide)
  have hsp : isSpace c = false := by
    rcases hhead with rfl | h1
    · rfl
    · have := hne ' ' (by decide) (by decide)
      have := hne '\t' (by decide) (by decide)
      have := hne '\r' (by decide) (by decide)
      have := hne '\n' (by decide) (by decide)
      simp [isSpace, *]
  simp only [lex, hsp, hne '[' (by decide) (by decide), hne ']' (by decide) (by decide),
    hne '\x7b' (by decide) (by decide), hne '\x7d' (by decide) (by decide),
    hne ',' (by decide) (by decide), hne ':' (by decide) (by decide),
    hne '"' (by decide) (by decide), hcases, hnum, if_false, if_true]
  simp

theorem LexStep.trans {a b c : List Char} {t1 t2 : List Token}
    (h1 : LexStep a b t1) (h2 : LexStep b c t2) : LexStep a c (t1 ++ t2) := by
  refine ⟨le_trans h2.1 h1.1, ?_⟩
  intro n hn
  rw [h1.2 n hn, h2.2 n (lt_of_le_of_lt h1.1 hn)]
  cases lex n c <;> simp

theorem LexStep.refl (a : List Char) : LexStep a a [] := by
  refine ⟨le_refl _, ?_⟩
  intro n _
  cases lex n a <;> simp

theorem LexStep.lbracket (rest : List Char) : LexStep ('[' :: rest) rest [Token.lbracket] :=
  ⟨by simp, fun n hn => lex_lbracket n rest hn⟩

theorem LexStep.rbracket (rest : List Char) : LexStep (']' :: rest) rest [Token.rbracket] :=
  ⟨by simp, fun n hn => lex_rbracket n rest hn⟩

theorem LexStep.lbrace (rest : List Char) : LexStep ('\x7b' :: rest) rest [Token.lbrace] :=
  ⟨by simp, fun n hn => lex_lbrace n rest hn⟩

theorem LexStep.rbrace (rest : List Char) : LexStep ('\x7d' :: rest) rest [Token.rbrace] :=
  ⟨by simp, fun n hn => lex_rbrace n rest hn⟩

theorem LexStep.comma (rest : List Char) : LexStep (',' :: rest) rest [Token.comma] :=
  ⟨by simp, fun n hn => lex_comma n rest hn⟩

theorem LexStep.colon (rest : List Char) : LexStep (':' :: rest) rest [Token.colon] :=
  ⟨by simp, fun n hn => lex_colon n rest hn⟩

theorem LexStep.string (s : String) (rest : List Char) :
    LexStep (encodeString s ++ rest) rest [Token.str s.data] :=
  ⟨by simp, fun n hn => lex_encodeString n s rest hn⟩

theorem LexStep.key (key rest : List Char) (hkey : key.flatMap escapeChar = key) :
    LexStep ('"' :: (key ++ '"' :: rest)) rest [Token.str key] := by
  have h := LexStep.string (String.mk key) rest
  simpa [encodeString, hkey] using h

theorem LexStep.int (z : Int) (rest : List Char) :
    LexStep (encodeInt z ++ ',' :: rest) (',' :: rest) [Token.num (encodeInt z)] :=
  ⟨by simp, fun n hn => lex_encodeInt n z rest hn⟩

theorem LexStep.task (t : Task) (rest : List Char) :
    LexStep (encodeTask t ++ rest) rest (taskTokens t) := by
  have e : encodeTask t ++ rest =
      '\x7b' :: '"' :: (['s', 't', 'a', 't', 'u', 's'] ++ '"' :: ':' ::
        (encodeInt t.Estatus.val ++ ',' :: '"' :: (['t', 'i', 't', 'l', 'e'] ++ '"' :: ':' ::
          (encodeString t.Etitle ++ ',' :: '"' ::
            (['d', 'e', 's', 'c', 'r', 'i', 'p', 't', 'i', 'o', 'n'] ++ '"' :: ':' ::
              (encodeString t.Edescription ++ '\x7d' :: rest)))))) := by
    simp [encodeTask]
  rw [e]
  exact (LexStep.lbrace _).trans <| (LexStep.key _ _ (by decide)).trans <|
    (LexStep.colon _).trans <| (LexStep.int _ _).trans <| (LexStep.comma _).trans <|
    (LexStep.key _ _ (by decide)).trans <| (LexStep.colon _).trans <|
    (LexStep.string _ _).trans <| (LexStep.comma _).trans <|
    (LexStep.key _ _ (by decide)).trans <| (LexStep.colon _).trans <|
    (LexStep.string _ _).trans <| LexStep.rbrace _

theorem LexStep.elems {α : Type} (enc : α → List Char) (toks : α → List Token)
    (h : ∀ a rest, LexStep (enc a ++ rest) rest (toks a)) :
    ∀ (xs : List α) (rest : List Char),
      LexStep (encodeElems enc xs ++ rest) rest (elemsTokens toks xs)
  | [], rest => LexStep.refl rest
  | [a], rest => h a rest
  | a :: b :: r, rest => by
    have ih := LexStep.elems enc toks h (b :: r) rest
    have e : encodeElems enc (a :: b :: r) ++ rest =
        enc a ++ ',' :: (encodeElems enc (b :: r) ++ rest) := by
      simp [encodeElems]
    rw [e]
    exact (h a _).trans ((LexStep.comma _).trans ih)

theorem LexStep.slice {α : Type} (enc : α → List Char) (toks : α → List Token)
    (h : ∀ a rest, LexStep (enc a ++ rest) rest (toks a)) (xs : List α) (rest : List Char) :
    LexStep (encodeSlice enc xs ++ rest) rest (sliceTokens toks xs) := by
  have e : encodeSlice enc xs ++ rest = '[' :: (encodeElems enc xs ++ ']' :: rest) := by
    simp [encodeSlice]
  rw [e]
  have := (LexStep.lbracket _).trans
    ((LexStep.elems enc toks h xs (']' :: rest)).trans (LexStep.rbracket rest))
  simpa [sliceTokens] using this

theorem lex_jsonMarshal (x : List (List Task)) :
    lex ((jsonMarshal x).length + 1) (jsonMarshal x)
      = some (sliceTokens (sliceTokens taskTokens) x) := by
  have h := LexStep.slice (encodeSlice encodeTask) (sliceTokens taskTokens)
    (LexStep.slice encodeTask taskTokens LexStep.task) x []
  have h2 := h.2 ((jsonMarshal x).length + 1) (by simp [jsonMarshal])
  simp only [List.append_nil] at h2
  rw [jsonMarshal] at h2 ⊢
  rw [h2]
  simp [lex]

/-! ## JSON: the parser on the tokens of an encoded board -/

theorem parseValue_task (t : Task) (rest : List Token) (n : Nat)
    (h : (taskTokens t).length ≤ n) :
    parseValue n (taskTokens t ++ rest) = some (taskJSON t, rest) := by
  obtain ⟨k, rfl⟩ : ∃ k, n = k + 5 := ⟨n - 5, by simp [taskTokens] at h; omega⟩
  simp [taskTokens, taskJSON, parseValue, parseMembers]

theorem elemsTokens_head {α : Type} (toks : α → List Token)
    (hhead : ∀ a, ∃ tk r, toks a = tk :: r ∧ tk ≠ Token.rbracket) :
    ∀ (xs : List α), xs ≠ [] → ∀ rest,
      ∃ tk r, elemsTokens toks xs ++ rest = tk :: r ∧ tk ≠ Token.rbracket
  | [], h, _ => absurd rfl h
  | [a], _, rest => by
    obtain ⟨tk, r, h1, h2⟩ := hhead a
    exact ⟨tk, r ++ rest, by simp [elemsTokens, h1], h2⟩
  | a :: b :: l, _, rest => by
    obtain ⟨tk, r, h1, h2⟩ := hhead a
    exact ⟨tk, r ++ Token.comma :: elemsTokens toks (b :: l) ++ rest,
      by simp [elemsTokens, h1], h2⟩

theorem parseElems_elems {α : Type} (toks : α → List Token) (ast : α → JSON)
    (h : ∀ a rest n, (toks a).length ≤ n → parseValue n (toks a ++ rest) = some (ast a, rest)) :
    ∀ (xs : List α), xs ≠ [] → ∀ (rest : List Token) (n : Nat),
      (elemsTokens toks xs).length + 1 ≤ n →
      parseElems n (elemsTokens toks xs ++ Token.rbracket :: rest) = some (xs.map ast, rest)
  | [], hne, _, _, _ => absurd rfl hne
  | [a], _, rest, n, hn => by
    obtain ⟨k, rfl⟩ : ∃ k, n = k + 1 := ⟨n - 1, by omega⟩
    simp only [elemsTokens] at hn ⊢
    simp [parseElems, h a _ k (by omega)]
  | a :: b :: l, _, rest, n, hn => by
    obtain ⟨k, rfl⟩ : ∃ k, n = k + 1 := ⟨n - 1, by omega⟩
    simp only [elemsTokens, List.length_append, List.length_cons] at hn
    have ih := parseElems_elems toks ast h (b :: l) (by simp) rest k (by omega)
    have e : elemsTokens toks (a :: b :: l) ++ Token.rbracket :: rest =
        toks a ++ Token.comma :: (elemsTokens toks (b :: l) ++ Token.rbracket :: rest) := by
      simp [elemsTokens]
    rw [e]
    simp [parseElems, h a _ k (by omega), ih]

theorem parseValue_slice {α : Type} (toks : α → List Token) (ast : α → JSON)
    (hhead : ∀ a, ∃ tk r, toks a = tk :: r ∧ tk ≠ Token.rbracket)
    (h : ∀ a rest n, (toks a).length ≤ n → parseValue n (toks a ++ rest) = some (ast a, rest))
    (xs : List α) (rest : List Token) (n : Nat) (hn : (sliceTokens toks xs).length ≤ n) :
    parseValue n (sliceTokens toks xs ++ rest) = some (JSON.arr (xs.map ast), rest) := by
  obtain ⟨k, rfl⟩ : ∃ k, n = k + 1 := ⟨n - 1, by simp [sliceTokens] at hn; omega⟩
  simp only [sliceTokens, List.length_cons, List.length_append, List.length_nil] at hn
  by_cases hx : xs = []
  · subst hx
    simp [sliceTokens, elemsTokens, parseValue]
  · have hp := parseElems_elems toks ast h xs hx rest k (by omega)
    obtain ⟨tk, r, h1, h2⟩ := elemsTokens_head toks hhead xs hx (Token.rbracket :: rest)
    have e : sliceTokens toks xs ++ rest =
        Token.lbracket :: (elemsTokens toks xs ++ Token.rbracket :: rest) := by
      simp [sliceTokens]
    rw [e, parseValue]
    · rw [hp]
    · intro ts1 hts
      rw [h1] at hts
      injection hts with hh _
      exact h2 hh

/-! ## JSON: decoding the values of an encoded board -/

theorem decodeAll_map {α : Type} (f : JSON → Option α) (g : α → JSON)
    (h : ∀ a, f (g a) = some a) : ∀ xs : List α, decodeAll f (xs.map g) = some xs
  | [] => rfl
  | a :: xs => by simp [decodeAll, h a, decodeAll_map f g h xs]

theorem decodeTask_taskJSON (t : Task) : decodeTask (taskJSON t) = some t := by
  have k1 : keyMatches ['s', 't', 'a', 't', 'u', 's'] ['s', 't', 'a', 't', 'u', 's'] = true := by
    decide
  have k2 : keyMatches ['t', 'i', 't', 'l', 'e'] ['s', 't', 'a', 't', 'u', 's'] = false := by
    decide
  have k3 : keyMatches ['t', 'i', 't', 'l', 'e'] ['t', 'i', 't', 'l', 'e'] = true := by decide
  have k4 : keyMatches ['d', 'e', 's', 'c', 'r', 'i', 'p', 't', 'i', 'o', 'n']
      ['s', 't', 'a', 't', 'u', 's'] = false := by decide
  have k5 : keyMatches ['d', 'e', 's', 'c', 'r', 'i', 'p', 't', 'i', 'o', 'n']
      ['t', 'i', 't', 'l', 'e'] = false := by decide
  have k6 : keyMatches ['d', 'e', 's', 'c', 'r', 'i', 'p', 't', 'i', 'o', 'n']
      ['d', 'e', 's', 'c', 'r', 'i', 'p', 't', 'i', 'o', 'n'] = true := by decide
  obtain ⟨st, ti, de⟩ := t
  simp [decodeTask, taskJSON, decodeField, k1, k2, k3, k4, k5, k6, decodeInt, decodeString,
    parseInt_encodeInt]

theorem jsonUnmarshal_jsonMarshal (x : List (List Task)) :
    jsonUnmarshal (jsonMarshal x) = some x := by
  have hhead1 : ∀ t : Task, ∃ tk r, taskTokens t = tk :: r ∧ tk ≠ Token.rbracket :=
    fun t => ⟨_, _, rfl, by simp⟩
  have hhead2 : ∀ c : List Task,
      ∃ tk r, sliceTokens taskTokens c = tk :: r ∧ tk ≠ Token.rbracket :=
    fun c => ⟨_, _, rfl, by simp⟩
  have hp := parseValue_slice (sliceTokens taskTokens)
    (fun c => JSON.arr (c.map taskJSON)) hhead2
    (fun c rest n hn => parseValue_slice taskTokens taskJSON hhead1 parseValue_task c rest n hn)
    x [] (2 * (sliceTokens (sliceTokens taskTokens) x).length + 2) (by omega)
  simp only [List.append_nil] at hp
  simp only [jsonUnmarshal, lex_jsonMarshal, hp, decodeTaskLists]
  exact decodeAll_map decodeTasks (fun c => JSON.arr (c.map taskJSON))
    (fun c => by
      simp only [decodeTasks]
      exact decodeAll_map decodeTask taskJSON decodeTask_taskJSON c) x


/-! ## Persistence round trip -/

theorem columns_three (m : Model) (a b c : ListModel) (h : m.lists = [a, b, c]) :
    m.columns = [a.items, b.items, c.items] := by
  simp [Model.columns, h]

/-- C1: for boards `B` and `B1` with three columns each, `ConvertToTaskList`
on `B` returns the three task sequences of `B`; `updateDB` stores their JSON
text; decoding that text gives the same three sequences back; and
`ImportTaskList` of them on `B1` (what `getListsFromDB` does with the stored
text) returns a board whose three columns are exactly the columns of `B`:
the same tasks (status, title, description) in the same order, with nothing
of the former contents of `B1` left.  The focus of `B1` is kept; cursors are
not part of the statement. -/
theorem persistence_round_trip (B B1 : Model)
    (hB : B.lists.length = 3) (hB1 : B1.lists.length = 3) :
    ∃ snapshot S R,
      B.ConvertToTaskList = some snapshot ∧
      snapshot = B.columns ∧
      B.updateDB = some S ∧
      S.database = some (jsonMarshal snapshot) ∧
      jsonUnmarshal (jsonMarshal snapshot) = some snapshot ∧
      B1.ImportTaskList snapshot = some R ∧
      ({ B1 with database := S.database }).getListsFromDB
        = some { R with database := S.database } ∧
      R.columns = B.columns ∧
      R.lists.length = 3 ∧
      R.focused = B1.focused := by
  obtain ⟨a, b, c, h⟩ := slice_three hB
  obtain ⟨a1, b1, c1, h1⟩ := slice_three hB1
  have hconv := ConvertToTaskList_three B a b c h
  have himp := ImportTaskList_three B1 a1 b1 c1 a.items b.items c.items h1
  have himp2 := ImportTaskList_three
    { B1 with database := some (jsonMarshal [a.items, b.items, c.items]) }
    a1 b1 c1 a.items b.items c.items h1
  have hcol := columns_three B a b c h
  refine ⟨B.columns, { B with database := some (jsonMarshal B.columns) },
    { B1 with lists := [⟨a.items, a1.index⟩, ⟨b.items, b1.index⟩, ⟨c.items, c1.index⟩] },
    ?_, rfl, ?_, rfl, jsonUnmarshal_jsonMarshal _, ?_, ?_, ?_, rfl, rfl⟩
  · rw [hconv, hcol]
  · simp only [Model.updateDB, hconv, hcol]
  · rw [hcol]; exact himp
  · simp only [Model.getListsFromDB, Option.getD_some, jsonUnmarshal_jsonMarshal]
    rw [hcol]; exact himp2
  · rw [hcol]; rfl

/-- Witness of C1: the columns of `demoBoard` saved and loaded into
`emptyBoard`. -/
theorem persistence_round_trip_witness :
    demoBoard.lists.length = 3 ∧ emptyBoard.lists.length = 3 ∧
    ∃ snapshot S R,
      demoBoard.ConvertToTaskList = some snapshot ∧
      snapshot = demoBoard.columns ∧
      demoBoard.updateDB = some S ∧
      S.database = some (jsonMarshal snapshot) ∧
      jsonUnmarshal (jsonMarshal snapshot) = some snapshot ∧
      emptyBoard.ImportTaskList snapshot = some R ∧
      ({ emptyBoard with database := S.database }).getListsFromDB
        = some { R with database := S.database } ∧
      R.columns = demoBoard.columns ∧
      R.lists.length = 3 ∧
      R.focused = emptyBoard.focused :=
  ⟨by decide, by decide, persistence_round_trip demoBoard emptyBoard (by decide) (by decide)⟩

/-! ## Status/column agreement on reachable boards -/

/-- C8: on every board reachable from the board with three empty columns by
`Next`, `Prev`, `MoveToNext`, `DeleteTask`, delivery of a `Task` message
whose status is one of the three statuses, `ImportTaskList` of a snapshot
taken by `ConvertToTaskList` on a reachable board, and cursor movement,
every task stored in the column of index `i` has status `i`.  Such a board
has three columns and a focus among the three statuses. -/
theorem status_column_agreement (m : Model) (h : Model.Reachable m) :
    (∀ (i : Nat) (col : ListModel) (t : Task),
      m.lists[i]? = some col → t ∈ col.items → t.Estatus.val = (i : Int)) ∧
    m.lists.length = 3 ∧
    (m.focused = todo ∨ m.focused = inProgress ∨ m.focused = done) := by
  obtain ⟨a, b, c, hl, ha, hb, hc, hf⟩ := Model.Reachable_inv m h
  refine ⟨?_, by simp [hl], hf⟩
  intro i col t hcol ht
  rw [hl] at hcol
  match i, hcol with
  | 0, hcol =>
    simp only [List.getElem?_cons_zero, Option.some.injEq] at hcol
    subst hcol
    rw [ha t ht]; rfl
  | 1, hcol =>
    simp only [List.getElem?_cons_succ, List.getElem?_cons_zero, Option.some.injEq] at hcol
    subst hcol
    rw [hb t ht]; rfl
  | 2, hcol =>
    simp only [List.getElem?_cons_succ, List.getElem?_cons_zero, Option.some.injEq] at hcol
    subst hcol
    rw [hc t ht]; rfl
  | n + 3, hcol => simp at hcol

/-- Witness of C8: `oneTaskBoard` is reachable by one delivery to the empty
board. -/
theorem status_column_agreement_witness :
    Model.Reachable oneTaskBoard ∧
    (∀ (i : Nat) (col : ListModel) (t : Task),
      oneTaskBoard.lists[i]? = some col → t ∈ col.items → t.Estatus.val = (i : Int)) ∧
    oneTaskBoard.lists.length = 3 ∧
    (oneTaskBoard.focused = todo ∨ oneTaskBoard.focused = inProgress ∨
      oneTaskBoard.focused = done) :=
  ⟨Model.Reachable.task emptyBoard oneTaskBoard ⟨todo, "Buy milk", "2%"⟩
      (Model.Reachable.init none true false) (Or.inl rfl) (by decide),
    status_column_agreement oneTaskBoard
      (Model.Reachable.task emptyBoard oneTaskBoard ⟨todo, "Buy milk", "2%"⟩
        (Model.Reachable.init none true false) (Or.inl rfl) (by decide))⟩

/-! ## The scenario -/

/-- C9 as stated fails on the code: after the task is created in todo and
advanced to inProgress, `DeleteTask` with the focus still on todo finds no
selected task and changes nothing, so the columns are not all empty after
step 3 and the saved snapshot does not decode to three empty sequences. -/
theorem scenario_delete_without_focus_change :
    ((Form.run demoEdit demoEdit (NewForm emptyBoard.focused)
        [Msg.KeyMsg "Buy milk", Msg.KeyMsg "enter", Msg.KeyMsg "2%"]).Update
      demoEdit demoEdit (Msg.KeyMsg "enter")).cmd = Cmd.CreateTask ⟨todo, "Buy milk", "2%"⟩ ∧
    ¬ ∃ m1 m2 m3 : Model,
      emptyBoard.UpdateTask ⟨todo, "Buy milk", "2%"⟩ = some m1 ∧
      m1.MoveToNext = some m2 ∧
      m2.DeleteTask = some m3 ∧
      m3.columns = [[], [], []] := by
  refine ⟨by decide, ?_⟩
  rintro ⟨m1, m2, m3, h1, h2, h3, h4⟩
  have e1 : emptyBoard.UpdateTask ⟨todo, "Buy milk", "2%"⟩ = some oneTaskBoard := by decide
  rw [e1] at h1
  cases h1
  have e2 : oneTaskBoard.MoveToNext = some { oneTaskBoard with
      lists := [⟨[], 0⟩, ⟨[⟨inProgress, "Buy milk", "2%"⟩], 0⟩, ⟨[], 0⟩] } := by decide
  rw [e2] at h2
  cases h2
  have e3 : ({ oneTaskBoard with
      lists := [⟨[], 0⟩, ⟨[⟨inProgress, "Buy milk", "2%"⟩], 0⟩, ⟨[], 0⟩] } : Model).DeleteTask
      = some { oneTaskBoard with
        lists := [⟨[], 0⟩, ⟨[⟨inProgress, "Buy milk", "2%"⟩], 0⟩, ⟨[], 0⟩] } := by decide
  rw [e3] at h3
  cases h3
  exact absurd h4 (by decide)

/-- C9 amended: from the board with three empty columns and the focus on
todo, delivering the task the form creates for the focused status with
title "Buy milk" and description "2%" leaves exactly that task in todo and
the other columns empty; `MoveToNext` then leaves it solely in inProgress,
with status inProgress; `DeleteTask` with the focus still on todo changes
nothing, and the snapshot then decodes to an empty, a one-task and an empty
sequence; after the focus is moved to inProgress by `Next`, `DeleteTask`
empties all three columns and the snapshot decodes to three empty
sequences. -/
theorem scenario_amended :
    ∃ m1 m2 m3 : Model,
      ((Form.run demoEdit demoEdit (NewForm emptyBoard.focused)
          [Msg.KeyMsg "Buy milk", Msg.KeyMsg "enter", Msg.KeyMsg "2%"]).Update
        demoEdit demoEdit (Msg.KeyMsg "enter")).cmd = Cmd.CreateTask ⟨todo, "Buy milk", "2%"⟩ ∧
      emptyBoard.columns = [[], [], []] ∧ emptyBoard.focused = todo ∧
      emptyBoard.UpdateTask ⟨todo, "Buy milk", "2%"⟩ = some m1 ∧
      m1.columns = [[⟨todo, "Buy milk", "2%"⟩], [], []] ∧
      m1.MoveToNext = some m2 ∧
      m2.columns = [[], [⟨inProgress, "Buy milk", "2%"⟩], []] ∧
      m2.focused = todo ∧
      m2.DeleteTask = some m2 ∧
      (∃ snapshot, m2.ConvertToTaskList = some snapshot ∧
        jsonUnmarshal (jsonMarshal snapshot)
          = some [[], [⟨inProgress, "Buy milk", "2%"⟩], []]) ∧
      m2.Next.focused = inProgress ∧
      m2.Next.DeleteTask = some m3 ∧
      m3.columns = [[], [], []] ∧
      (∃ snapshot, m3.ConvertToTaskList = some snapshot ∧
        jsonUnmarshal (jsonMarshal snapshot) = some [[], [], []]) :=
  ⟨oneTaskBoard,
    { oneTaskBoard with
      lists := [⟨[], 0⟩, ⟨[⟨inProgress, "Buy milk", "2%"⟩], 0⟩, ⟨[], 0⟩] },
    { oneTaskBoard with focused := inProgress, lists := [⟨[], 0⟩, ⟨[], 0⟩, ⟨[], 0⟩] },
    by decide, by decide, by decide, by decide, by decide, by decide, by decide, by decide,
    by decide,
    ⟨[[], [⟨inProgress, "Buy milk", "2%"⟩], []], by decide, jsonUnmarshal_jsonMarshal _⟩,
    by decide, by decide, by decide,
    ⟨[[], [], []], by decide, jsonUnmarshal_jsonMarshal _⟩⟩

end Kancli
